import Mathlib

/-!
Verification of the pynbody GadgetHDF snapshot reader
(src/pynbody/snapshot/gadgethdf.py) against its natural-language
specification.  The Python code is shallowly embedded: stateful code is
modelled by explicit state passing, Python exceptions by an `Except`
monad over an explicit error type, numpy floats by exact rationals, and
HDF5 file contents by explicit inductive data.
-/

namespace PynbodyGadgetHDF

/-- The Python exceptions (and numpy failure modes) that the embedded code
can raise. -/
inductive PyErr where
  | keyError
  | indexError
  | valueError
  | stopIteration
  | osError
  | unitsException
  | assertionError
  | nameError
  | typeError
  | attributeError
  | zeroDivisionError
  | floatPowError
deriving DecidableEq, Repr

/-- Association-list lookup (first binding wins), modelling a Python dict
read `d[k]` returning `None`-like absence as `Option`. -/
def alookup {κ α : Type} [DecidableEq κ] (k : κ) : List (κ × α) → Option α
  | [] => none
  | (k2, v) :: rest => if k = k2 then some v else alookup k rest

/-- Association-list update: replace the first binding of `k`, or append a
new one, modelling a Python dict write `d[k] = v`. -/
def aset {κ α : Type} [DecidableEq κ] (k : κ) (v : α) : List (κ × α) → List (κ × α)
  | [] => [(k, v)]
  | (k2, w) :: rest => if k = k2 then (k, v) :: rest else (k2, w) :: aset k v rest

/-! ## The multi-file manager (`_GadgetHdfMultiFileManager`) -/

/-- An open h5py file handle: which file it is and the mode it was opened
with. -/
structure Handle where
  file : String
  mode : String
deriving DecidableEq, Repr

/-- State of `_GadgetHdfMultiFileManager`: the declared number of files,
their names, the current access mode, and the lazily populated cache of
open handles (`self._open_files`). -/
structure MgrState where
  numfiles : Nat
  filenames : List String
  mode : String
  openFiles : List (Nat × Handle)
deriving DecidableEq, Repr

/-- Python `h5py.File(self._filenames[i], self._mode)`: open file `i` in the
manager's current mode. -/
def openFileAt (st : MgrState) (i : Nat) : Handle :=
  ⟨st.filenames.getD i "", st.mode⟩

/-- One pass of `__iter__` up to index `k` (exclusive): every index
`0, …, k-1` not yet in the cache is opened and cached. -/
def ensureOpen (st : MgrState) : Nat → MgrState
  | 0 => st
  | k + 1 =>
      let st2 := ensureOpen st k
      match alookup k st2.openFiles with
      | some _ => st2
      | none => { st2 with openFiles := st2.openFiles ++ [(k, openFileAt st2 k)] }

/-- Source `__getitem__(i)`: return the cached handle, or drive the lazy iterator
with `next(itertools.islice(self, i, i+1))`.  When `i` is within
`[0, numfiles)` this opens (and caches) every file up to `i` and returns
handle `i`; when `i ≥ numfiles` the iterator is exhausted and `next`
raises `StopIteration`. -/
def mgrGet (st : MgrState) (i : Nat) : Except PyErr (Handle × MgrState) :=
  match alookup i st.openFiles with
  | some h => .ok (h, st)
  | none =>
      if i < st.numfiles then
        let st2 := ensureOpen st (i + 1)
        match alookup i st2.openFiles with
        | some h => .ok (h, st2)
        | none => .error .keyError
      else
        .error .stopIteration

/-- Source `reopen_in_mode(mode)`: if the mode differs, drop the whole handle
cache and record the new mode; otherwise do nothing. -/
def reopen_in_mode (st : MgrState) (mode : String) : MgrState :=
  if mode ≠ st.mode then { st with openFiles := [], mode := mode } else st

theorem ensureOpen_mode (st : MgrState) (k : Nat) : (ensureOpen st k).mode = st.mode := by
  induction k with
  | zero => rfl
  | succ n ih =>
      simp only [ensureOpen]
      cases alookup n (ensureOpen st n).openFiles <;> simp [ih]

theorem ensureOpen_numfiles (st : MgrState) (k : Nat) :
    (ensureOpen st k).numfiles = st.numfiles := by
  induction k with
  | zero => rfl
  | succ n ih =>
      simp only [ensureOpen]
      cases alookup n (ensureOpen st n).openFiles <;> simp [ih]

theorem ensureOpen_filenames (st : MgrState) (k : Nat) :
    (ensureOpen st k).filenames = st.filenames := by
  induction k with
  | zero => rfl
  | succ n ih =>
      simp only [ensureOpen]
      cases alookup n (ensureOpen st n).openFiles <;> simp [ih]

theorem alookup_append_single {κ α : Type} [DecidableEq κ] (k k2 : κ) (v : α)
    (l : List (κ × α)) :
    alookup k (l ++ [(k2, v)]) =
      match alookup k l with
      | some w => some w
      | none => if k = k2 then some v else none := by
  induction l with
  | nil => simp [alookup]
  | cons p rest ih =>
      obtain ⟨k3, w⟩ := p
      by_cases h : k = k3 <;> simp [alookup, h, ih]

/-- Running `ensureOpen st k` does not touch cache entries at indices `≥ k`. -/
theorem ensureOpen_lookup_ge (st : MgrState) (k i : Nat) (hik : k ≤ i) :
    alookup i (ensureOpen st k).openFiles = alookup i st.openFiles := by
  induction k with
  | zero => rfl
  | succ n ih =>
      simp only [ensureOpen]
      cases hcache : alookup n (ensureOpen st n).openFiles with
      | some h => exact ih (by omega)
      | none =>
          rw [alookup_append_single, ih (by omega)]
          cases hst : alookup i st.openFiles with
          | some h => rfl
          | none =>
              have : i ≠ n := by omega
              simp [this]

/-- After `ensureOpen st k`, every index below `k` is cached: either its
pre-existing handle, or a freshly opened one. -/
theorem ensureOpen_lookup (st : MgrState) (k i : Nat) (hik : i < k) :
    alookup i (ensureOpen st k).openFiles =
      match alookup i st.openFiles with
      | some h => some h
      | none => some (openFileAt st i) := by
  induction k with
  | zero => omega
  | succ n ih =>
      simp only [ensureOpen]
      rcases Nat.lt_or_ge i n with hin | hin
      · cases hcache : alookup n (ensureOpen st n).openFiles with
        | some h => exact ih hin
        | none =>
            rw [alookup_append_single]
            rw [ih hin]
            cases alookup i st.openFiles with
            | some h => rfl
            | none => rfl
      · have hi : i = n := by omega
        subst hi
        cases hcache : alookup i (ensureOpen st i).openFiles with
        | some h =>
            have hst : alookup i st.openFiles = some h := by
              rw [← ensureOpen_lookup_ge st i i (Nat.le_refl i)]; exact hcache
            rw [hst]
            exact hcache
        | none =>
            have hst : alookup i st.openFiles = none := by
              rw [← ensureOpen_lookup_ge st i i (Nat.le_refl i)]; exact hcache
            rw [alookup_append_single, hcache, hst]
            unfold openFileAt
            rw [ensureOpen_filenames, ensureOpen_mode]
            simp

/-- C8 counterexample: requesting shard `i = 1` from a manager with a
single shard (`numfiles = 1`, empty cache) fails with `StopIteration`
(raised by `next(itertools.islice(self, i, i+1))` once the lazy iterator
is exhausted), not with the `IndexError` the claim asserts. -/
theorem mgrGet_out_of_range_raises_stopIteration :
    mgrGet ⟨1, ["snap.0.hdf5"], "r", []⟩ 1 = .error .stopIteration ∧
      (Except.error PyErr.stopIteration : Except PyErr (Handle × MgrState)) ≠
        .error .indexError := by
  refine ⟨rfl, fun h => ?_⟩
  injection h with h2
  exact PyErr.noConfusion h2

theorem alookup_mem {κ α : Type} [DecidableEq κ] {k : κ} {v : α} :
    ∀ {l : List (κ × α)}, alookup k l = some v → (k, v) ∈ l := by
  intro l
  induction l with
  | nil => intro h; exact absurd h (by simp [alookup])
  | cons p rest ih =>
      obtain ⟨k2, w⟩ := p
      intro h
      by_cases hk : k = k2
      · subst hk
        unfold alookup at h
        rw [if_pos rfl] at h
        injection h with h2
        subst h2
        exact List.mem_cons_self _ _
      · unfold alookup at h
        rw [if_neg hk] at h
        exact List.mem_cons_of_mem _ (ih h)

/-- C8 (amended): for a manager whose handle cache only holds in-range
indices, requesting shard `i` with `i < numfiles` returns the lazily
opened handle for file `i` (the cached one if present, else one freshly
opened in the current mode), while `i ≥ numfiles` fails with
`StopIteration` — not `IndexError` — because the out-of-range access
exhausts the lazy `islice` iterator. -/
theorem mgrGet_spec (st : MgrState) (i : Nat)
    (hc : ∀ p ∈ st.openFiles, p.1 < st.numfiles) :
    (st.numfiles ≤ i → mgrGet st i = .error .stopIteration) ∧
    (i < st.numfiles →
      ∃ st2, mgrGet st i = .ok ((alookup i st.openFiles).getD (openFileAt st i), st2)) := by
  constructor
  · intro hge
    have hnone : alookup i st.openFiles = none := by
      cases hl : alookup i st.openFiles with
      | none => rfl
      | some h =>
          exfalso
          have := hc (i, h) (alookup_mem hl)
          omega
    unfold mgrGet
    rw [hnone]
    simp only
    rw [if_neg (by omega)]
  · intro hlt
    unfold mgrGet
    cases hl : alookup i st.openFiles with
    | some h => exact ⟨st, rfl⟩
    | none =>
        simp only
        rw [if_pos hlt]
        refine ⟨ensureOpen st (i + 1), ?_⟩
        rw [ensureOpen_lookup st (i + 1) i (by omega), hl]
        rfl

/-- C8 witness: the amended behaviour at a concrete one-shard manager. -/
theorem mgrGet_spec_witness :
    mgrGet ⟨1, ["snap.0.hdf5"], "r", []⟩ 2 = .error .stopIteration ∧
      ∃ st2, mgrGet ⟨1, ["snap.0.hdf5"], "r", []⟩ 0 =
        .ok (⟨"snap.0.hdf5", "r"⟩, st2) := by
  refine ⟨(mgrGet_spec ⟨1, ["snap.0.hdf5"], "r", []⟩ 2 (by simp)).1 (by decide), ?_⟩
  exact (mgrGet_spec ⟨1, ["snap.0.hdf5"], "r", []⟩ 0 (by simp)).2 (by decide)

/-- C10: `reopen_in_mode(m)` with the current mode is a no-op — the
handle cache and the stored mode are left untouched — while a different
mode clears the whole handle cache and records the new mode, leaving the
file list and file count unchanged. -/
theorem reopen_in_mode_frame (st : MgrState) (m : String) :
    (m = st.mode → reopen_in_mode st m = st) ∧
    (m ≠ st.mode →
      (reopen_in_mode st m).openFiles = [] ∧ (reopen_in_mode st m).mode = m ∧
        (reopen_in_mode st m).numfiles = st.numfiles ∧
        (reopen_in_mode st m).filenames = st.filenames) := by
  constructor
  · intro h
    unfold reopen_in_mode
    rw [if_neg (by simp [h])]
  · intro h
    unfold reopen_in_mode
    rw [if_pos h]
    exact ⟨rfl, rfl, rfl, rfl⟩

/-- C10 witness: the no-op and the cache-clearing branch at a concrete
manager state. -/
theorem reopen_in_mode_frame_witness :
    reopen_in_mode ⟨2, ["a.0.hdf5", "a.1.hdf5"], "r", [(0, ⟨"a.0.hdf5", "r"⟩)]⟩ "r" =
        ⟨2, ["a.0.hdf5", "a.1.hdf5"], "r", [(0, ⟨"a.0.hdf5", "r"⟩)]⟩ ∧
      (reopen_in_mode ⟨2, ["a.0.hdf5", "a.1.hdf5"], "r",
          [(0, ⟨"a.0.hdf5", "r"⟩)]⟩ "r+").openFiles = [] := by
  constructor
  · exact (reopen_in_mode_frame ⟨2, ["a.0.hdf5", "a.1.hdf5"], "r",
      [(0, ⟨"a.0.hdf5", "r"⟩)]⟩ "r").1 rfl
  · exact ((reopen_in_mode_frame ⟨2, ["a.0.hdf5", "a.1.hdf5"], "r",
      [(0, ⟨"a.0.hdf5", "r"⟩)]⟩ "r+").2 (by decide)).1

/-! ## The description-string unit parser (`_get_units_from_description`) -/

def strFindAux (needle : List Char) : List Char → Nat → Option Nat
  | [], i => if needle = [] then some i else none
  | c :: rest, i =>
      if needle.isPrefixOf (c :: rest) then some i else strFindAux needle rest (i + 1)

/-- Python `haystack.find(needle)`: index of the first occurrence, `none`
for the `-1` not-found result.  `unitname in description` is
`(strFind …).isSome`. -/
def strFind (hay needle : List Char) : Option Nat := strFindAux needle hay 0

/-- Python slice `d[a:-1]`: characters from index `a` up to (excluding)
the last character of `d`. -/
def pySliceToPenult (d : List Char) (a : Nat) : List Char :=
  (d.take (d.length - 1)).drop a

def pySplitWsAux : List Char → List Char → List (List Char)
  | [], acc => if acc = [] then [] else [acc.reverse]
  | c :: rest, acc =>
      if c.isWhitespace then
        if acc = [] then pySplitWsAux rest [] else acc.reverse :: pySplitWsAux rest []
      else pySplitWsAux rest (c :: acc)

/-- Python `s.split()`: split on runs of whitespace, dropping empty
tokens. -/
def pySplitWs (s : List Char) : List (List Char) := pySplitWsAux s []

def digitsVal (l : List Char) : Nat :=
  l.foldl (fun acc c => acc * 10 + (c.toNat - 48)) 0

/-- Executable arithmetic on `Rat` through `Rat.divInt` (the core
`Rat.add`-style operations are `@[irreducible]`, which would block kernel
evaluation of concrete runs; these wrappers compute the same rationals). -/
def rAdd (a b : Rat) : Rat := Rat.divInt (a.num * b.den + b.num * a.den) (a.den * b.den)

def rSub (a b : Rat) : Rat := Rat.divInt (a.num * b.den - b.num * a.den) (a.den * b.den)

def rMul (a b : Rat) : Rat := Rat.divInt (a.num * b.num) (a.den * b.den)

def rDiv (a b : Rat) : Rat := Rat.divInt (a.num * b.den) (a.den * b.num)

def rNeg (a : Rat) : Rat := Rat.neg a

def rInv (a : Rat) : Rat := Rat.divInt a.den a.num

def ratOfNat (n : Nat) : Rat := Rat.divInt (Int.ofNat n) 1

/-- Absolute value on `Rat` through the executable core comparison. -/
def ratAbs (q : Rat) : Rat := if q.blt 0 then rNeg q else q

/-- Comparison `a ≤ b` on `Rat` as an executable boolean (`¬ (b < a)`). -/
def ratLe (a b : Rat) : Bool := !(b.blt a)

def qnpow (c : Rat) : Nat → Rat
  | 0 => 1
  | n + 1 => rMul c (qnpow c n)

/-- Power `c ** n` for an integer exponent, through executable core `Rat`
operations. -/
def qzpow (c : Rat) : Int → Rat
  | .ofNat m => qnpow c m
  | .negSucc m => rInv (qnpow c (m + 1))

def pyFloatUnsigned (t : List Char) : Except PyErr Rat :=
  let s := t.span Char.isDigit
  match s.2 with
  | [] => if s.1 = [] then .error .valueError else .ok (ratOfNat (digitsVal s.1))
  | c :: rest2 =>
      if c = '.' then
        let f := rest2.span Char.isDigit
        if f.2 ≠ [] then .error .valueError
        else if s.1 = [] ∧ f.1 = [] then .error .valueError
        else .ok (rAdd (ratOfNat (digitsVal s.1)) (rDiv (ratOfNat (digitsVal f.1)) (qnpow 10 f.1.length)))
      else .error .valueError

/-- Python `float(token)` restricted to plain decimal literals (optional
sign, digits, optional fraction part); other forms are mapped to
`ValueError`.  The composition `Fraction.from_float(float(x))
.limit_denominator()` applied downstream recovers exactly the decimal
value, so it is modelled as the identity on the parsed rational. -/
def pyFloat (t : List Char) : Except PyErr Rat :=
  match t with
  | '+' :: rest => pyFloatUnsigned rest
  | '-' :: rest => (pyFloatUnsigned rest).map (fun q => rNeg q)
  | _ => pyFloatUnsigned t

/-- Python `float(slice.split()[0])`: first whitespace token of a slice, parsed
as a float; an empty token list raises `IndexError` from `[0]`. -/
def pyTokenFloat (l : List Char) : Except PyErr Rat :=
  match pySplitWs l with
  | [] => .error .indexError
  | tok :: _ => pyFloat tok

/-- The per-symbol exponent computation of `_get_units_from_description`
(the body guarded by `if unitname in description`): base power 1, negated
when the character before the symbol is a slash, multiplied by the
caret-suffix number when the character right after the symbol is a caret
(with a minus directly after the caret negating it).  The character one
past the caret is read with an unguarded index (`description[sstart +
len(unitname) + 1]`), so a description ending exactly at the caret raises
`IndexError`. -/
def symbolPower (d u : List Char) : Except PyErr Rat :=
  match strFind d u with
  | none => .ok 1
  | some sstart =>
      let base : Rat := if 0 < sstart ∧ d.get? (sstart - 1) = some '/' then rNeg 1 else 1
      if sstart + u.length < d.length then
        if d.get? (sstart + u.length) = some '^' then
          match d.get? (sstart + u.length + 1) with
          | none => .error .indexError
          | some c =>
              if c = '-' then
                (pyTokenFloat (pySliceToPenult d (sstart + u.length + 2))).map
                  (fun q => rMul (rMul base (rNeg 1)) q)
              else
                (pyTokenFloat (pySliceToPenult d (sstart + u.length + 1))).map
                  (fun q => rMul base q)
        else .ok base
      else .ok base

/-- Numpy `np.allclose(a, b)` with the defaults `rtol=1e-5`,
`atol=1e-8`, over exact rationals. -/
def pyAllclose (a b : Rat) : Bool :=
  ratLe (ratAbs (rSub a b)) (rAdd (Rat.divInt 1 100000000) (rMul (Rat.divInt 1 100000) (ratAbs b)))

/-- Numpy `np.allclose(a, b, rtol=1e-3)` (the `atol` default `1e-8` stays). -/
def pyAllcloseR3 (a b : Rat) : Bool :=
  ratLe (ratAbs (rSub a b)) (rAdd (Rat.divInt 1 100000000) (rMul (Rat.divInt 1 1000) (ratAbs b)))

/-- A unit value as a formal product of powers of named base units
(the granularity the claims need of `pynbody.units`). -/
abbrev UnitV := List (String × Rat)

def scaleUnit (u : UnitV) (p : Rat) : UnitV :=
  u.map (fun sq => (sq.1, rMul sq.2 p))

/-- Power `c ** Fraction(p)` for the pure-cgs conversion product.  The Python
value is a float power; the embedding computes it exactly for integer
exponents and refuses fractional ones (no claim in scope exercises
fractional cgs powers). -/
def qpowE (c p : Rat) : Except PyErr Rat :=
  if p.den = 1 then .ok (qzpow c p.num) else .error .floatPowError

/-- The accumulation loop of `_get_units_from_description`: walk the
symbol table (`_hdf_unitvar` keys in insertion order, each with its unit
value and its `in_units(cgs)` factor), and for every symbol occurring in
the description multiply the unit product and the pure-cgs conversion
product by the symbol raised to its parsed power. -/
def unitsCore : List (String × UnitV × Rat) → List Char → UnitV → Rat →
    Except PyErr (UnitV × Rat)
  | [], _, u, conv => .ok (u, conv)
  | (sym, uv, cgs) :: rest, d, u, conv =>
      if (strFind d sym.data).isSome then
        match symbolPower d sym.data with
        | .error e => .error e
        | .ok p =>
            if pyAllclose p 0 then unitsCore rest d u conv
            else
              match qpowE cgs p with
              | .error e => .error e
              | .ok f => unitsCore rest d (u ++ scaleUnit uv p) (rMul conv f)
      else unitsCore rest d u conv

/-- Source `_get_units_from_description(description, expectedCgsConversionFactor)`:
accumulate, then — when an expected factor is declared — compare the
accumulated cgs conversion against it with `np.allclose(…, rtol=1e-3)`,
raising `units.UnitsException` on mismatch. -/
def get_units_from_description (table : List (String × UnitV × Rat)) (d : List Char)
    (expected : Option Rat) : Except PyErr UnitV :=
  match unitsCore table d [] 1 with
  | .error e => .error e
  | .ok (u, conv) =>
      match expected with
      | none => .ok u
      | some e => if pyAllcloseR3 conv e then .ok u else .error .unitsException

/-- The sign contributed by a leading division slash: `-1` when the
character right before the symbol occurrence is `/`, else `1`. -/
def slashSign (pre : List Char) : Rat :=
  if pre.getLast? = some '/' then rNeg 1 else 1

theorem get?_append_left {α : Type} (l1 l2 : List α) (k : Nat) (h : k < l1.length) :
    (l1 ++ l2).get? k = l1.get? k := by
  induction l1 generalizing k with
  | nil => simp at h
  | cons a t ih =>
      cases k with
      | zero => rfl
      | succ m =>
          simp only [List.cons_append, List.get?]
          exact ih m (by simpa using h)

theorem get?_append_add {α : Type} (l1 l2 : List α) (k : Nat) :
    (l1 ++ l2).get? (l1.length + k) = l2.get? k := by
  induction l1 with
  | nil => simp
  | cons a t ih =>
      simp only [List.cons_append, List.length_cons]
      have : t.length + 1 + k = (t.length + k) + 1 := by omega
      rw [this]
      simpa using ih

theorem getLast?_eq_get?_pred {α : Type} (l : List α) :
    l.getLast? = l.get? (l.length - 1) := by
  induction l with
  | nil => rfl
  | cons a t ih =>
      cases t with
      | nil => rfl
      | cons b t2 =>
          rw [List.getLast?_cons_cons, ih]
          have h1 : (b :: t2).length - 1 = t2.length := by simp
          have h2 : (a :: b :: t2).length - 1 = t2.length + 1 := by simp
          rw [h1, h2]
          rfl

/-- The slash test of the parser (`sstart > 0` and `d[sstart-1] == "/"`)
expressed through the prefix before the symbol occurrence. -/
theorem slash_base_eq (pre mid : List Char) :
    (if 0 < pre.length ∧ (pre ++ mid).get? (pre.length - 1) = some '/' then rNeg 1
      else (1 : Rat)) = slashSign pre := by
  unfold slashSign
  cases hpre : pre with
  | nil => simp
  | cons a t =>
      have hlen : 0 < (a :: t).length := by simp
      have hget : ((a :: t) ++ mid).get? ((a :: t).length - 1) = (a :: t).get? ((a :: t).length - 1) := by
        apply get?_append_left
        simp
      rw [hget, ← getLast?_eq_get?_pred]
      by_cases h : (a :: t).getLast? = some '/'
      · rw [if_pos ⟨hlen, h⟩, if_pos h]
      · rw [if_neg (fun hand => h hand.2), if_neg h]

theorem get?_append_append {α : Type} (l1 l2 l3 : List α) (k : Nat) :
    (l1 ++ (l2 ++ l3)).get? (l1.length + l2.length + k) = l3.get? k := by
  have h3 : l1.length + l2.length + k = l1.length + (l2.length + k) := Nat.add_assoc _ _ _
  rw [h3, get?_append_add, get?_append_add]

/-- C4 counterexample: for the description `"U_L^"` — ending exactly at
the caret — the symbol-exponent computation for `"U_L"` raises
`IndexError` (the unguarded read of the character one past the caret),
rather than succeeding with exponent 1 as the claim states. -/
theorem symbolPower_caret_at_end_raises :
    symbolPower "U_L^".data "U_L".data = .error .indexError := by rfl

/-- C4 (amended): for a symbol occurring at position `|pre|` of the
description `pre ++ u ++ suf`, the parsed exponent is the slash sign
(−1 when the character before the occurrence is `/`, else 1), multiplied
by the numeric caret suffix when the character right after the symbol is
`^` (a `-` directly after the caret negating it); when the symbol sits at
the very end of the description the parse succeeds with exponent ±1, but
when the description ends exactly at the caret the parser raises
`IndexError` instead of succeeding. -/
theorem symbolPower_rule (pre u suf : List Char)
    (hfind : strFind (pre ++ (u ++ suf)) u = some pre.length) :
    (suf = [] → symbolPower (pre ++ (u ++ suf)) u = .ok (slashSign pre)) ∧
    (∀ c rest, suf = c :: rest → c ≠ '^' →
        symbolPower (pre ++ (u ++ suf)) u = .ok (slashSign pre)) ∧
    (suf = ['^'] → symbolPower (pre ++ (u ++ suf)) u = .error .indexError) ∧
    (∀ rest q, suf = '^' :: '-' :: rest →
        pyTokenFloat (pySliceToPenult (pre ++ (u ++ suf)) (pre.length + u.length + 2)) = .ok q →
        symbolPower (pre ++ (u ++ suf)) u = .ok (rMul (rMul (slashSign pre) (rNeg 1)) q)) ∧
    (∀ c rest q, suf = '^' :: c :: rest → c ≠ '-' →
        pyTokenFloat (pySliceToPenult (pre ++ (u ++ suf)) (pre.length + u.length + 1)) = .ok q →
        symbolPower (pre ++ (u ++ suf)) u = .ok (rMul (slashSign pre) q)) := by
  refine ⟨?_, ?_, ?_, ?_, ?_⟩
  · intro hsuf
    subst hsuf
    have hL : (pre ++ (u ++ ([] : List Char))).length = pre.length + u.length := by simp
    simp only [symbolPower, hfind]
    rw [if_neg (by rw [hL]; omega)]
    rw [slash_base_eq pre (u ++ [])]
  · intro c rest hsuf hc
    subst hsuf
    have hL : (pre ++ (u ++ (c :: rest))).length = pre.length + u.length + rest.length + 1 := by
      simp; omega
    have hg0 : (pre ++ (u ++ (c :: rest))).get? (pre.length + u.length) = some c := by
      have := get?_append_append pre u (c :: rest) 0
      simpa using this
    simp only [symbolPower, hfind]
    rw [if_pos (by rw [hL]; omega)]
    rw [if_neg (by rw [hg0]; exact fun h => hc (by injection h))]
    rw [slash_base_eq pre (u ++ (c :: rest))]
  · intro hsuf
    subst hsuf
    have hL : (pre ++ (u ++ ['^'])).length = pre.length + u.length + 1 := by simp; omega
    have hg0 : (pre ++ (u ++ ['^'])).get? (pre.length + u.length) = some '^' := by
      have := get?_append_append pre u ['^'] 0
      simpa using this
    have hg1 : (pre ++ (u ++ ['^'])).get? (pre.length + u.length + 1) = none := by
      have := get?_append_append pre u ['^'] 1
      simpa using this
    simp only [symbolPower, hfind]
    rw [if_pos (by rw [hL]; omega)]
    rw [if_pos hg0, hg1]
  · intro rest q hsuf htok
    subst hsuf
    have hL : (pre ++ (u ++ ('^' :: '-' :: rest))).length =
        pre.length + u.length + rest.length + 2 := by simp; omega
    have hg0 : (pre ++ (u ++ ('^' :: '-' :: rest))).get? (pre.length + u.length) = some '^' := by
      have := get?_append_append pre u ('^' :: '-' :: rest) 0
      simpa using this
    have hg1 : (pre ++ (u ++ ('^' :: '-' :: rest))).get? (pre.length + u.length + 1) =
        some '-' := by
      have := get?_append_append pre u ('^' :: '-' :: rest) 1
      simpa using this
    simp only [symbolPower, hfind]
    rw [if_pos (by rw [hL]; omega)]
    rw [if_pos hg0, hg1]
    simp only [if_pos rfl]
    rw [htok]
    rw [slash_base_eq pre (u ++ ('^' :: '-' :: rest))]
    rfl
  · intro c rest q hsuf hc htok
    subst hsuf
    have hL : (pre ++ (u ++ ('^' :: c :: rest))).length =
        pre.length + u.length + rest.length + 2 := by simp; omega
    have hg0 : (pre ++ (u ++ ('^' :: c :: rest))).get? (pre.length + u.length) = some '^' := by
      have := get?_append_append pre u ('^' :: c :: rest) 0
      simpa using this
    have hg1 : (pre ++ (u ++ ('^' :: c :: rest))).get? (pre.length + u.length + 1) = some c := by
      have := get?_append_append pre u ('^' :: c :: rest) 1
      simpa using this
    simp only [symbolPower, hfind]
    rw [if_pos (by rw [hL]; omega)]
    rw [if_pos hg0]
    simp only [hg1]
    rw [if_neg hc]
    rw [htok]
    rw [slash_base_eq pre (u ++ ('^' :: c :: rest))]
    rfl

/-- C4 witness: the amended rule at concrete descriptions — a slash-negated
symbol at the very end of the description, and a caret suffix `^2`. -/
theorem symbolPower_rule_witness :
    symbolPower ("/".data ++ ("U_L".data ++ [])) "U_L".data = .ok (slashSign "/".data) ∧
      symbolPower ([] ++ ("U_L".data ++ "^2 x".data)) "U_L".data =
        .ok (rMul (slashSign []) (ratOfNat 2)) := by
  constructor
  · exact (symbolPower_rule "/".data "U_L".data [] (by rfl)).1 rfl
  · exact (symbolPower_rule [] "U_L".data "^2 x".data (by rfl)).2.2.2.2 '2' " x".data
      (ratOfNat 2) rfl (by decide) (by rfl)

/-- C5: when a cgs conversion factor is declared, the description parser
compares the independently accumulated pure-cgs conversion product against
it with `np.allclose(…, rtol=1e-3)`: within tolerance the inferred unit
product is returned, beyond tolerance the fatal `units.UnitsException` is
raised (never a warning). -/
theorem description_units_cgs_check (table : List (String × UnitV × Rat)) (d : List Char)
    (u : UnitV) (conv : Rat) (ec : Rat)
    (h : unitsCore table d [] 1 = .ok (u, conv)) :
    (pyAllcloseR3 conv ec = true →
      get_units_from_description table d (some ec) = .ok u) ∧
    (pyAllcloseR3 conv ec = false →
      get_units_from_description table d (some ec) = .error .unitsException) := by
  unfold get_units_from_description
  rw [h]
  constructor
  · intro hb
    simp [hb]
  · intro hb
    simp [hb]

/-- C5 witness: a one-symbol table with cgs factor 100; the matching
declared factor returns the unit, the mismatched factor 7 raises the
exception. -/
theorem description_units_cgs_check_witness :
    get_units_from_description [("U_L", [("cm", (1 : Rat))], 100)] "U_L".data (some 100) =
        .ok [("cm", 1)] ∧
      get_units_from_description [("U_L", [("cm", (1 : Rat))], 100)] "U_L".data (some 7) =
        .error .unitsException := by
  constructor
  · exact (description_units_cgs_check [("U_L", [("cm", (1 : Rat))], 100)] "U_L".data
      [("cm", 1)] 100 100 (by rfl)).1 (by rfl)
  · exact (description_units_cgs_check [("U_L", [("cm", (1 : Rat))], 100)] "U_L".data
      [("cm", 1)] 100 7 (by rfl)).2 (by rfl)

/-! ## The snapshot data model -/

/-- An HDF attribute value: a string (e.g. `VarDescription`) or a number
(e.g. `CGSConversionFactor`, scale exponents). -/
inductive AttrV where
  | str (s : String)
  | num (q : Rat)
deriving DecidableEq, Repr

/-- An HDF dataset: element dtype, shape, flattened contents, and
attributes.  `size` is the number of elements (product of the shape),
`len()` is the first shape entry. -/
structure DsetD where
  dtype : String
  shape : List Nat
  values : List Rat
  attrs : List (String × AttrV)
deriving DecidableEq, Repr

def natProd (l : List Nat) : Nat := l.foldl (fun a b => a * b) 1

def DsetD.size (d : DsetD) : Nat := natProd d.shape

def DsetD.len (d : DsetD) : Nat := d.shape.headD 0

/-- A child of a particle group: either a dataset or a nested sub-group of
datasets (the nesting depth the Gadget-HDF layouts use for names such as
`ElementAbundance/Oxygen`). -/
inductive HNode where
  | ds (d : DsetD)
  | sub (children : List (String × DsetD))
deriving DecidableEq, Repr

/-- A native particle-type group (`PartTypeN`).  `name` is the h5py
`.name`, whose last character is the numeric type index. -/
structure HGroup where
  name : String
  children : List (String × HNode)
deriving DecidableEq, Repr

/-- One physical shard file: its particle groups and the `Header`
attribute `MassTable` (indexed by particle-type number). -/
structure Shard where
  groups : List (String × HGroup)
  massTable : List Rat
deriving DecidableEq, Repr

/-- The canonical/native name mapping.  Modelled from the spec: the
`namemapper.AdaptiveNameMapper` implementation is not part of this file's
source; per the spec it maps one canonical name to candidate native names
in priority order (`toNative`) and back (`toCanonical`). -/
structure Translator where
  toNative : String → List String
  toCanonical : String → String

/-- The per-particle in-memory array store of the surrounding `SimSnap`
framework (outside this file): family name and canonical array name to
the array's dtype, per-particle dimensionality, and flattened values. -/
def ArrStore := String → String → String × Nat × List Rat

/-- The state a constructed `GadgetHDFSnap` reads: the shard contents, the
family-to-group map (`self._family_to_group_map`, restricted to groups
present on disk), the name translator, the configured candidate group
names (`_all_hdf_particle_groups`), the softening parameter attributes
(keyed by the numeric suffix of the attribute names), the expansion
factor `properties['a']`, the unit symbol table (`_hdf_unitvar` paired
with the `in_units(_hdf_cgsvar)` factors), and the in-memory arrays. -/
structure Snap where
  shards : List Shard
  familyMap : List (String × List String)
  trans : Translator
  allGroupNames : List String
  softClass : Nat → Option Nat
  softComoving : Nat → Option Rat
  softMaxPhys : Nat → Option Rat
  aFactor : Rat
  unitTable : List (String × UnitV × Rat)
  arrays : ArrStore

def groupHasKey (g : HGroup) (k : String) : Bool := (alookup k g.children).isSome

/-- Source `iter_particle_groups_with_name(name)`: walk the shard files in order
and yield the group of that name from every shard that has it and in
which it contains the `ParticleIDs` dataset, paired with the shard's
header `MassTable` (the group's parent header). -/
def groupsWithName (s : Snap) (p : String) : List (List Rat × HGroup) :=
  s.shards.filterMap (fun sh =>
    match alookup p sh.groups with
    | some g => if groupHasKey g "ParticleIDs" then some (sh.massTable, g) else none
    | none => none)

/-- Source `hdf_group[self._size_from_hdf5_key].size`: the element count of the
group's `ParticleIDs` dataset.  (A `ParticleIDs` entry that is itself a
group would raise `AttributeError` in h5py; valid snapshots store it as a
dataset, and the file map only evaluates this on groups that passed the
membership probe.) -/
def pidSize (g : HGroup) : Nat :=
  match alookup "ParticleIDs" g.children with
  | some (HNode.ds d) => d.size
  | _ => 0

/-! ## Family iteration order (`_families_ordered`) -/

/-- Python string comparison (`<`): lexicographic by code point. -/
def strLtB : List Char → List Char → Bool
  | [], [] => false
  | [], _ :: _ => true
  | _ :: _, [] => false
  | a :: as, b :: bs => if a = b then strLtB as bs else decide (a.toNat < b.toNat)

/-- The sort key of `_families_ordered`:
`self._family_to_group_map[v][0]`, the name of the family's first native
group. -/
def famKey (s : Snap) (f : String) : String :=
  ((alookup f s.familyMap).getD []).headD ""

/-- One step of a stable insertion sort by `famKey` under Python string
order: the new element goes after every element whose key is not
strictly greater (ties keep original order, as Python's stable `sorted`
does). -/
def ordIns (s : Snap) (x : String) : List String → List String
  | [] => [x]
  | y :: ys => if strLtB (famKey s x).data (famKey s y).data then x :: y :: ys
      else y :: ordIns s x ys

/-- Source `_families_ordered`: `sorted(families, key=lambda v:
self._family_to_group_map[v][0])` — a stable sort by the *name* of the
family's first native group.  Python's `sorted` is a stable sort by the
key, and a stable sort's output is unique, so this stable insertion sort
computes the same list. -/
def families_ordered (s : Snap) : List String :=
  (s.familyMap.map Prod.fst).foldl (fun acc x => ordIns s x acc) []

theorem strLtB_asymm : ∀ u v, strLtB u v = true → strLtB v u = false := by
  intro u
  induction u with
  | nil => intro v h; cases v with
      | nil => exact absurd h (by simp [strLtB])
      | cons b bs => simp [strLtB]
  | cons a as ih =>
      intro v h
      cases v with
      | nil => exact absurd h (by simp [strLtB])
      | cons b bs =>
          unfold strLtB at h ⊢
          by_cases hab : a = b
          · subst hab
            rw [if_pos rfl] at h ⊢
            exact ih bs h
          · rw [if_neg hab] at h
            rw [if_neg (fun hba => hab hba.symm)]
            simp only [decide_eq_true_eq] at h
            simp only [decide_eq_false_iff_not]
            omega

theorem strLtB_trans : ∀ u v w, strLtB u v = true → strLtB v w = true → strLtB u w = true := by
  intro u
  induction u with
  | nil =>
      intro v w huv hvw
      cases w with
      | nil =>
          cases v with
          | nil => exact absurd huv (by simp [strLtB])
          | cons b bs => exact absurd hvw (by simp [strLtB])
      | cons c cs => simp [strLtB]
  | cons a as ih =>
      intro v w huv hvw
      cases v with
      | nil => exact absurd huv (by simp [strLtB])
      | cons b bs =>
          cases w with
          | nil => exact absurd hvw (by simp [strLtB])
          | cons c cs =>
              unfold strLtB at huv hvw ⊢
              by_cases hab : a = b
              · subst hab
                rw [if_pos rfl] at huv
                by_cases hbc : a = c
                · subst hbc
                  rw [if_pos rfl] at hvw ⊢
                  exact ih bs cs huv hvw
                · rw [if_neg hbc] at hvw ⊢
                  exact hvw
              · rw [if_neg hab] at huv
                simp only [decide_eq_true_eq] at huv
                by_cases hbc : b = c
                · subst hbc
                  rw [if_neg hab]
                  simp only [decide_eq_true_eq]
                  exact huv
                · rw [if_neg hbc] at hvw
                  simp only [decide_eq_true_eq] at hvw
                  have hac : a ≠ c := by
                    intro hx
                    subst hx
                    omega
                  rw [if_neg hac]
                  simp only [decide_eq_true_eq]
                  omega

theorem strLtB_conn : ∀ u v, strLtB u v = false → strLtB v u = false → u = v := by
  intro u
  induction u with
  | nil =>
      intro v huv _
      cases v with
      | nil => rfl
      | cons b bs => exact absurd huv (by simp [strLtB])
  | cons a as ih =>
      intro v huv hvu
      cases v with
      | nil => exact absurd hvu (by simp [strLtB])
      | cons b bs =>
          unfold strLtB at huv hvu
          by_cases hab : a = b
          · subst hab
            rw [if_pos rfl] at huv hvu
            rw [ih bs huv hvu]
          · rw [if_neg hab] at huv
            rw [if_neg (fun hba => hab hba.symm)] at hvu
            simp only [decide_eq_false_iff_not] at huv hvu
            exfalso
            have : a.toNat = b.toNat := by omega
            exact hab (Char.ext (UInt32.toNat.inj this))

/-- The ordering by sort key that `_families_ordered` establishes: `a` may
precede `b` when `b`'s first-group name is not strictly below `a`'s in
Python string order. -/
def famLe (s : Snap) (a b : String) : Prop :=
  strLtB (famKey s b).data (famKey s a).data = false

theorem famLe_trans (s : Snap) (a b c : String) (hab : famLe s a b) (hbc : famLe s b c) :
    famLe s a c := by
  unfold famLe at hab hbc ⊢
  cases hca : strLtB (famKey s c).data (famKey s a).data with
  | false => rfl
  | true =>
      exfalso
      cases hbk : strLtB (famKey s b).data (famKey s c).data with
      | true =>
          have := strLtB_trans _ _ _ hbk hca
          rw [this] at hab
          exact Bool.noConfusion hab
      | false =>
          have heq := strLtB_conn _ _ hbc hbk
          rw [← heq] at hab
          rw [hca] at hab
          exact Bool.noConfusion hab

theorem ordIns_perm (s : Snap) (x : String) :
    ∀ l : List String, List.Perm (ordIns s x l) (x :: l) := by
  intro l
  induction l with
  | nil => exact List.Perm.refl _
  | cons y ys ih =>
      unfold ordIns
      by_cases h : strLtB (famKey s x).data (famKey s y).data = true
      · rw [if_pos h]
      · rw [if_neg h]
        exact List.Perm.trans (List.Perm.cons y ih) (List.Perm.swap x y ys)

theorem ordIns_sorted (s : Snap) (x : String) :
    ∀ l : List String, List.Pairwise (famLe s) l → List.Pairwise (famLe s) (ordIns s x l) := by
  intro l
  induction l with
  | nil => intro _; simp [ordIns]
  | cons y ys ih =>
      intro hp
      rcases List.pairwise_cons.mp hp with ⟨hy, hys⟩
      unfold ordIns
      by_cases h : strLtB (famKey s x).data (famKey s y).data = true
      · rw [if_pos h]
        have hxy : famLe s x y := strLtB_asymm _ _ h
        refine List.pairwise_cons.mpr ⟨?_, hp⟩
        intro z hz
        rcases List.mem_cons.mp hz with hz | hz
        · rw [hz]; exact hxy
        · exact famLe_trans s x y z hxy (hy z hz)
      · rw [if_neg h]
        refine List.pairwise_cons.mpr ⟨?_, ih hys⟩
        intro z hz
        have hz2 := (ordIns_perm s x ys).mem_iff.mp hz
        rcases List.mem_cons.mp hz2 with hz2 | hz2
        · rw [hz2]
          exact eq_false_of_ne_true h
        · exact hy z hz2

theorem foldl_ordIns_perm (s : Snap) :
    ∀ (l acc : List String),
      List.Perm (l.foldl (fun a x => ordIns s x a) acc) (acc ++ l) := by
  intro l
  induction l with
  | nil => intro acc; simp
  | cons x xs ih =>
      intro acc
      have h1 := ih (ordIns s x acc)
      have h2 : List.Perm (ordIns s x acc ++ xs) ((x :: acc) ++ xs) :=
        (ordIns_perm s x acc).append_right xs
      have h3 : List.Perm ((x :: acc) ++ xs) (acc ++ x :: xs) := by
        simpa using List.perm_middle.symm
      exact List.Perm.trans h1 (List.Perm.trans h2 h3)

theorem foldl_ordIns_sorted (s : Snap) :
    ∀ (l acc : List String), List.Pairwise (famLe s) acc →
      List.Pairwise (famLe s) (l.foldl (fun a x => ordIns s x a) acc) := by
  intro l
  induction l with
  | nil => intro acc h; exact h
  | cons x xs ih => intro acc h; exact ih (ordIns s x acc) (ordIns_sorted s x acc h)

/-- C7 (amended): `_families_ordered` is a permutation of the present
families, sorted (stably) by the *name* of each family's first native
group under Python string comparison — lexicographic by code point, which
agrees with the numeric type index only while indices are single
digits. -/
theorem families_ordered_sorted_by_first_group_name (s : Snap) :
    List.Perm (families_ordered s) (s.familyMap.map Prod.fst) ∧
      List.Pairwise (famLe s) (families_ordered s) := by
  constructor
  · have := foldl_ordIns_perm s (s.familyMap.map Prod.fst) []
    simpa [families_ordered] using this
  · exact foldl_ordIns_sorted s (s.familyMap.map Prod.fst) [] (by simp)

def exTrans : Translator := ⟨fun n => [n], fun n => n⟩

def exPids (n : Nat) : DsetD := ⟨"uint64", [n], List.replicate n 0, []⟩

def exGroup (name : String) (n : Nat) : HGroup :=
  ⟨name, [("ParticleIDs", .ds (exPids n))]⟩

/-- A snapshot whose `dm` family's first group is `PartType2` and whose
`star` family's first group is `PartType10`. -/
def exSnapC7 : Snap where
  shards := [⟨[("PartType2", exGroup "/PartType2" 4),
               ("PartType10", exGroup "/PartType10" 3)], []⟩]
  familyMap := [("dm", ["PartType2"]), ("star", ["PartType10"])]
  trans := exTrans
  allGroupNames := ["PartType2", "PartType10"]
  softClass := fun _ => none
  softComoving := fun _ => none
  softMaxPhys := fun _ => none
  aFactor := 1
  unitTable := []
  arrays := fun _ _ => ("float64", 1, [])

/-- C7 counterexample: with first groups `PartType2` (type index 2) and
`PartType10` (type index 10), `_families_ordered` puts the `PartType10`
family *first* — `sorted` compares the group names as strings, and
`"PartType10" < "PartType2"` — whereas ordering by the numeric type index
would put the `PartType2` family first. -/
theorem families_ordered_string_order_counterexample :
    families_ordered exSnapC7 = ["star", "dm"] ∧
      families_ordered exSnapC7 ≠ ["dm", "star"] := by
  refine ⟨by rfl, ?_⟩
  intro h
  rw [show families_ordered exSnapC7 = ["star", "dm"] from rfl] at h
  injection h with h1 _
  exact absurd h1 (by decide)

/-! ## The flat index layout (`__init_file_map`) -/

/-- The length contributed by one native particle type: the sum over all
shards of the `ParticleIDs` sizes of its groups (the inner loop of
`__init_file_map`). -/
def ptypeLen (s : Snap) (p : String) : Nat :=
  ((groupsWithName s p).map (fun mg => pidSize mg.2)).sum

structure SliceN where
  start : Nat
  stop : Nat
deriving DecidableEq, Repr

/-- The per-native-type slices of one family, starting at the family's
offset and accumulating (`ptype_slice_start += ptype_slice_len`). -/
def ptypeSlicesFrom (s : Snap) : Nat → List String → List (String × SliceN)
  | _, [] => []
  | start, p :: ps =>
      (p, ⟨start, start + ptypeLen s p⟩) :: ptypeSlicesFrom s (start + ptypeLen s p) ps

/-- Source `family_length`: the sum of the native-type lengths of the family's
groups. -/
def famLen (s : Snap) (f : String) : Nat :=
  (((alookup f s.familyMap).getD []).map (ptypeLen s)).sum

/-- One family's portion of the layout: its slice
(`self._family_slice[fam]`) and its per-native-type sub-slices
(`self._gadget_ptype_slice`). -/
structure FamEntry where
  fam : String
  slice : SliceN
  ptypes : List (String × SliceN)
deriving DecidableEq, Repr

/-- The outer loop of `__init_file_map` from a given offset
(`family_slice_start += family_length`). -/
def fileMapFrom (s : Snap) : Nat → List String → List FamEntry
  | _, [] => []
  | start, f :: fs =>
      { fam := f, slice := ⟨start, start + famLen s f⟩,
        ptypes := ptypeSlicesFrom s start ((alookup f s.familyMap).getD []) } ::
        fileMapFrom s (start + famLen s f) fs

/-- Source `__init_file_map`: walk the families in `_families_ordered` order from
offset 0. -/
def fileMap (s : Snap) : List FamEntry := fileMapFrom s 0 (families_ordered s)

/-- Source `self._num_particles`: the final accumulated offset. -/
def numParticles (s : Snap) : Nat := ((families_ordered s).map (famLen s)).sum

/-- The partition shape of a slice list: consecutive slices are
contiguous (each starts where the previous one stopped), non-empty-or-
empty but well-ordered (`start ≤ stop`), and they exactly tile the range
`[lo, hi)`. -/
def chainedSlices (lo hi : Nat) : List SliceN → Prop
  | [] => lo = hi
  | sl :: rest => sl.start = lo ∧ sl.start ≤ sl.stop ∧ chainedSlices sl.stop hi rest

theorem chainedSlices_bounds :
    ∀ (sls : List SliceN) (lo hi : Nat), chainedSlices lo hi sls →
      lo ≤ hi ∧ ∀ sl ∈ sls, lo ≤ sl.start ∧ sl.stop ≤ hi := by
  intro sls
  induction sls with
  | nil =>
      intro lo hi h
      exact ⟨Nat.le_of_eq h, by intro sl hsl; cases hsl⟩
  | cons sl rest ih =>
      intro lo hi h
      obtain ⟨hs, hle, hrest⟩ := h
      obtain ⟨hlh, hmem⟩ := ih sl.stop hi hrest
      refine ⟨by omega, ?_⟩
      intro z hz
      rcases List.mem_cons.mp hz with hz | hz
      · subst hz; omega
      · have := hmem z hz
        omega

/-- Chained slices are pairwise non-overlapping (each ends before the
next begins). -/
theorem chainedSlices_pairwise :
    ∀ (sls : List SliceN) (lo hi : Nat), chainedSlices lo hi sls →
      List.Pairwise (fun a b => a.stop ≤ b.start) sls := by
  intro sls
  induction sls with
  | nil => intro lo hi _; exact List.Pairwise.nil
  | cons sl rest ih =>
      intro lo hi h
      obtain ⟨hs, hle, hrest⟩ := h
      refine List.pairwise_cons.mpr ⟨?_, ih sl.stop hi hrest⟩
      intro z hz
      exact ((chainedSlices_bounds rest sl.stop hi hrest).2 z hz).1

/-- Chained slices exactly cover the range `[lo, hi)`. -/
theorem chainedSlices_cover :
    ∀ (sls : List SliceN) (lo hi : Nat), chainedSlices lo hi sls →
      ∀ i, (lo ≤ i ∧ i < hi) ↔ ∃ sl, sl ∈ sls ∧ sl.start ≤ i ∧ i < sl.stop := by
  intro sls
  induction sls with
  | nil =>
      intro lo hi h i
      have h2 : lo = hi := h
      constructor
      · intro hi2; omega
      · intro ⟨sl, hsl, _⟩; cases hsl
  | cons sl rest ih =>
      intro lo hi h i
      obtain ⟨hs, hle, hrest⟩ := h
      have hbounds := chainedSlices_bounds rest sl.stop hi hrest
      constructor
      · intro ⟨hlo, hhi⟩
        by_cases hc : i < sl.stop
        · exact ⟨sl, List.mem_cons_self _ _, by omega, hc⟩
        · obtain ⟨z, hz, hzi⟩ := (ih sl.stop hi hrest i).mp ⟨by omega, hhi⟩
          exact ⟨z, List.mem_cons_of_mem _ hz, hzi⟩
      · intro ⟨z, hz, hzi⟩
        rcases List.mem_cons.mp hz with hz | hz
        · subst hz; omega
        · have hin := (ih sl.stop hi hrest i).mpr ⟨z, hz, hzi⟩
          omega

theorem ptypeSlicesFrom_fst (s : Snap) :
    ∀ (ps : List String) (start : Nat), (ptypeSlicesFrom s start ps).map Prod.fst = ps := by
  intro ps
  induction ps with
  | nil => intro start; rfl
  | cons p ps2 ih =>
      intro start
      simp only [ptypeSlicesFrom, List.map_cons, List.cons.injEq]
      exact ⟨trivial, ih _⟩

theorem ptypeSlicesFrom_chained (s : Snap) :
    ∀ (ps : List String) (start : Nat),
      chainedSlices start (start + (ps.map (ptypeLen s)).sum)
        ((ptypeSlicesFrom s start ps).map Prod.snd) := by
  intro ps
  induction ps with
  | nil => intro start; simp [ptypeSlicesFrom, chainedSlices]
  | cons p ps2 ih =>
      intro start
      refine ⟨rfl, Nat.le_add_right _ _, ?_⟩
      have h := ih (start + ptypeLen s p)
      have harith : start + ptypeLen s p + (ps2.map (ptypeLen s)).sum =
          start + (ptypeLen s p + (ps2.map (ptypeLen s)).sum) := by omega
      rw [harith] at h
      simpa using h

theorem fileMapFrom_fams (s : Snap) :
    ∀ (fs : List String) (start : Nat),
      (fileMapFrom s start fs).map (fun e => e.fam) = fs := by
  intro fs
  induction fs with
  | nil => intro start; rfl
  | cons f fs2 ih =>
      intro start
      simp only [fileMapFrom, List.map_cons, List.cons.injEq]
      exact ⟨trivial, ih _⟩

theorem fileMapFrom_chained (s : Snap) :
    ∀ (fs : List String) (start : Nat),
      chainedSlices start (start + (fs.map (famLen s)).sum)
        ((fileMapFrom s start fs).map (fun e => e.slice)) := by
  intro fs
  induction fs with
  | nil => intro start; simp [fileMapFrom, chainedSlices]
  | cons f fs2 ih =>
      intro start
      refine ⟨rfl, Nat.le_add_right _ _, ?_⟩
      have h := ih (start + famLen s f)
      have harith : start + famLen s f + (fs2.map (famLen s)).sum =
          start + (famLen s f + (fs2.map (famLen s)).sum) := by omega
      rw [harith] at h
      simpa using h

theorem fileMapFrom_forall (s : Snap) :
    ∀ (fs : List String) (start : Nat),
      List.Forall (fun e =>
        chainedSlices e.slice.start e.slice.stop (e.ptypes.map Prod.snd) ∧
          e.ptypes.map Prod.fst = (alookup e.fam s.familyMap).getD [])
        (fileMapFrom s start fs) := by
  intro fs
  induction fs with
  | nil => intro start; exact trivial
  | cons f fs2 ih =>
      intro start
      refine List.forall_cons _ _ _ |>.mpr ⟨⟨?_, ptypeSlicesFrom_fst s _ _⟩, ih _⟩
      have h := ptypeSlicesFrom_chained s ((alookup f s.familyMap).getD []) start
      simpa [famLen] using h

/-- C1: for every snapshot, the flat layout built by `__init_file_map` is
an exact partition — the family slices, in family iteration order, are
contiguous with `start ≤ stop`, pairwise non-overlapping, and exactly
cover `[0, N)` where `N` is the snapshot's particle count; within each
family the per-native-type sub-slices are likewise chained over exactly
the family's slice; and every family of the map (and every native group
of each family) receives a well-defined (possibly zero-length) range. -/
theorem fileMap_partition (s : Snap) :
    chainedSlices 0 (numParticles s) ((fileMap s).map (fun e => e.slice)) ∧
      List.Pairwise (fun a b => a.stop ≤ b.start) ((fileMap s).map (fun e => e.slice)) ∧
      (∀ i, i < numParticles s ↔
        ∃ sl, sl ∈ (fileMap s).map (fun e => e.slice) ∧ sl.start ≤ i ∧ i < sl.stop) ∧
      (fileMap s).map (fun e => e.fam) = families_ordered s ∧
      List.Forall (fun e =>
        chainedSlices e.slice.start e.slice.stop (e.ptypes.map Prod.snd) ∧
          e.ptypes.map Prod.fst = (alookup e.fam s.familyMap).getD [])
        (fileMap s) := by
  have hch : chainedSlices 0 (numParticles s) ((fileMap s).map (fun e => e.slice)) := by
    have h := fileMapFrom_chained s (families_ordered s) 0
    simpa [fileMap, numParticles] using h
  refine ⟨hch, chainedSlices_pairwise _ _ _ hch, ?_, fileMapFrom_fams s _ _,
    fileMapFrom_forall s _ _⟩
  intro i
  have h := chainedSlices_cover _ _ _ hch i
  constructor
  · intro hi2
    exact h.mp ⟨Nat.zero_le _, hi2⟩
  · intro hex
    exact (h.mpr hex).2

/-! ## Dataset resolution (`_get_hdf_dataset`) and the array loader -/

/-- A value used as a dataset by the loader: a real on-disk dataset, or a
`_DummyHDFData` (constant `value`, `length`, `dtype`) emulating an array
whose value lives in the header. -/
inductive DSet where
  | real (d : DsetD)
  | dummy (value : Rat) (length : Nat) (dtype : String)
deriving DecidableEq, Repr

def DSet.dsize : DSet → Nat
  | .real d => d.size
  | .dummy _ l _ => l

def DSet.dlen : DSet → Nat
  | .real d => d.len
  | .dummy _ l _ => l

def DSet.dshape : DSet → List Nat
  | .real d => d.shape
  | .dummy _ l _ => [l]

def DSet.ddtype : DSet → String
  | .real d => d.dtype
  | .dummy _ _ dt => dt

/-- Python `hasattr(dset, "attrs")`: real datasets have attributes, the dummy
does not. -/
def DSet.hasAttrs : DSet → Bool
  | .real _ => true
  | .dummy _ _ _ => false

def DSet.dattrs : DSet → List (String × AttrV)
  | .real d => d.attrs
  | .dummy _ _ _ => []

/-- Source `_all_hdf_groups`: the groups of every configured candidate name
(`_all_hdf_particle_groups`, config order), across all shards. -/
def allHdfGroups (s : Snap) : List (List Rat × HGroup) :=
  s.allGroupNames.flatMap (fun p => groupsWithName s p)

/-- Source `__infer_mass_dtype`: start from float64 and take the dtype of the
`Coordinates` dataset of every group that has one — the last such group
wins.  (A `Coordinates` entry that is a sub-group would raise
`AttributeError` in h5py; the model reads only dataset entries.) -/
def infer_mass_dtype (s : Snap) : String :=
  (allHdfGroups s).foldl (fun acc mg =>
    match alookup "Coordinates" mg.2.children with
    | some (HNode.ds d) => d.dtype
    | _ => acc) "float64"

/-- Python `int(particle_group.name[-1])`: `IndexError` on an empty name,
`ValueError` when the last character is not a digit. -/
def lastCharPgid (name : String) : Except PyErr Nat :=
  match name.data.getLast? with
  | none => .error .indexError
  | some c => if c.isDigit then .ok (c.toNat - 48) else .error .valueError

/-- Source `_get_softening_for_particle_type`: look up the softening class of the
type, then its comoving and maximum-physical values, clipping the
comoving value to `max_physical / a`.  A missing class attribute returns
`None`; missing value attributes raise `KeyError`. -/
def get_softening_for_ptype (s : Snap) (pt : Nat) : Except PyErr (Option Rat) :=
  match s.softClass pt with
  | none => .ok none
  | some cn =>
      match s.softComoving cn, s.softMaxPhys cn with
      | some com, some mx =>
          .ok (some (if Rat.blt (rDiv mx s.aFactor) com then rDiv mx s.aFactor else com))
      | _, _ => .error .keyError

def splitSlashAux : List Char → List Char → List String
  | [], acc => [String.mk acc.reverse]
  | c :: rest, acc =>
      if c = '/' then String.mk acc.reverse :: splitSlashAux rest []
      else splitSlashAux rest (c :: acc)

/-- Python `name.split("/")`. -/
def splitSlash (n : String) : List String := splitSlashAux n.data []

/-- Resolve a `/`-separated dataset path by walking `ret = ret[tpart]`
over the (depth-two) group tree.  A missing component raises `KeyError`;
a path ending on a sub-group, or indexing through a dataset, is mapped to
`TypeError` (its later use as a dataset fails in h5py). -/
def resolveDsPath (g : HGroup) (parts : List String) : Except PyErr DsetD :=
  match parts with
  | [n] =>
      match alookup n g.children with
      | some (HNode.ds d) => .ok d
      | some (HNode.sub _) => .error .typeError
      | none => .error .keyError
  | [sname, n] =>
      match alookup sname g.children with
      | some (HNode.sub ch) =>
          match alookup n ch with
          | some d => .ok d
          | none => .error .keyError
      | some (.ds _) => .error .typeError
      | none => .error .keyError
  | _ => .error .keyError

/-- Source `_get_hdf_dataset(particle_group, hdf_name)`: for a name whose
canonical translation is the mass pseudo-array, try the header
`MassTable` route — a positive entry for the group's type yields a dummy
dataset of that constant at the pre-inferred mass dtype; `IndexError` and
`KeyError` along that route fall through to the plain lookup (`ValueError`
from `int()` of a non-digit name does not).  For the softening
pseudo-array, a computed softening yields a dummy the same way (with no
enclosing `try`).  Otherwise resolve the name as a `/`-separated dataset
path. -/
def get_hdf_dataset (s : Snap) (mt : List Rat) (g : HGroup) (hdfName : String) :
    Except PyErr DSet :=
  if s.trans.toCanonical hdfName = "mass" then
    match g.name.data.getLast? with
    | none => (resolveDsPath g (splitSlash hdfName)).map DSet.real
    | some c =>
        if c.isDigit then
          match mt.get? (c.toNat - 48) with
          | none => (resolveDsPath g (splitSlash hdfName)).map DSet.real
          | some mtab =>
              if Rat.blt 0 mtab then
                match alookup "ParticleIDs" g.children with
                | some (HNode.ds d) => .ok (.dummy mtab d.size (infer_mass_dtype s))
                | some (HNode.sub _) => .error .attributeError
                | none => (resolveDsPath g (splitSlash hdfName)).map DSet.real
              else (resolveDsPath g (splitSlash hdfName)).map DSet.real
        else .error .valueError
  else if s.trans.toCanonical hdfName = "eps" then
    match lastCharPgid g.name with
    | .error e => .error e
    | .ok pt =>
        match get_softening_for_ptype s pt with
        | .error e => .error e
        | .ok none => (resolveDsPath g (splitSlash hdfName)).map DSet.real
        | .ok (some eps) =>
            match alookup "ParticleIDs" g.children with
            | some (HNode.ds d) => .ok (.dummy eps d.size (infer_mass_dtype s))
            | some (HNode.sub _) => .error .attributeError
            | none => .error .keyError
  else (resolveDsPath g (splitSlash hdfName)).map DSet.real

/-- Source `_get_hdf_allarray_keys`: the names of all datasets under the group,
nested ones as `sub/name` paths. -/
def allArrayKeys (g : HGroup) : List String :=
  g.children.flatMap (fun nc =>
    match nc.2 with
    | .ds _ => [nc.1]
    | .sub ch => ch.map (fun mc => nc.1 ++ "/" ++ mc.1))

def famGroupList (s : Snap) (f : String) : List (List Rat × HGroup) :=
  ((alookup f s.familyMap).getD []).flatMap (fun p => groupsWithName s p)

/-- Source `_have_softening_for_particle_group` as the boolean used while
building loadable keys.  (Construction would raise `ValueError` from
`int(name[-1])` for a group whose name does not end in a digit; such
snapshots never finish `__init__`, so the membership test treats them as
having no softening.) -/
def haveSoftB (s : Snap) (g : HGroup) : Bool :=
  match g.name.data.getLast? with
  | some c => c.isDigit && (s.softClass (c.toNat - 48)).isSome
  | none => false

/-- Modelled from the spec: `self.families()` is provided by the
surrounding `SimSnap` framework, not this file; per the spec it
enumerates the Families present in the snapshot.  The model uses the keys
of the family-to-group map. -/
def snapFamilies (s : Snap) : List String := s.familyMap.map Prod.fst

/-- Membership in `self._loadable_family_keys[fam]`: the mass
pseudo-array always, every canonical translation of a native key present
under any of the family's groups, and the softening pseudo-array when
every group of the family has softening metadata. -/
def loadable_fam (s : Snap) (f : String) (name : String) : Bool :=
  decide (name = "mass")
    || (famGroupList s f).any (fun mg =>
          (allArrayKeys mg.2).any (fun k => decide (s.trans.toCanonical k = name)))
    || (decide (name = "eps") && (famGroupList s f).all (fun mg => haveSoftB s mg.2))

/-- Source `_family_has_loadable_array(fam, name)`: per-family membership, or
for `fam = None` membership in the intersection over all families.  (With
zero families `__init_loadable_keys` returns before creating the global
set and a later global query would fail attribute lookup; the model
reports not-loadable.) -/
def loadable (s : Snap) (fam : Option String) (name : String) : Bool :=
  match fam with
  | some f => loadable_fam s f name
  | none =>
      match snapFamilies s with
      | [] => false
      | fs => fs.all (fun f => loadable_fam s f name)

/-- The unit value inferred for an array: `units.NoUnit()` or a unit
product. -/
inductive PyUnits where
  | noUnit
  | units (u : UnitV)
deriving DecidableEq, Repr

/-- Source `_get_units_from_hdf_attr`: without a `VarDescription` attribute,
warn and return `NoUnit`; otherwise parse the description against the
declared `CGSConversionFactor` and append the `a` and `h` exponents when
they are not (numerically) zero. -/
def get_units_from_hdf_attr (s : Snap) (attrs : List (String × AttrV)) :
    Except PyErr PyUnits :=
  match alookup "VarDescription" attrs with
  | none => .ok .noUnit
  | some (AttrV.num _) => .error .typeError
  | some (AttrV.str vd) =>
      match alookup "CGSConversionFactor" attrs, alookup "aexp-scale-exponent" attrs,
          alookup "h-scale-exponent" attrs with
      | some (AttrV.num cf), some (AttrV.num ae), some (AttrV.num he) =>
          match get_units_from_description s.unitTable vd.data (some cf) with
          | .error e => .error e
          | .ok u =>
              let u2 := if pyAllclose ae 0 then u else u ++ [("a", ae)]
              let u3 := if pyAllclose he 0 then u2 else u2 ++ [("h", he)]
              .ok (.units u3)
      | _, _, _ => .error .keyError

/-- The inner candidate loop of `__get_dtype_dims_and_units` for one
shard: try each translated name against the family's first group,
swallowing `KeyError` (from the group subscript or the lookup) and
breaking at the first success. -/
def probeInner (s : Snap) (sh : Shard) (g0 : String) :
    List String → Except PyErr (Option (DSet × String))
  | [] => .ok none
  | t :: ts =>
      match alookup g0 sh.groups with
      | none => probeInner s sh g0 ts
      | some g =>
          match get_hdf_dataset s sh.massTable g t with
          | .ok d => .ok (some (d, t))
          | .error .keyError => probeInner s sh g0 ts
          | .error e => .error e

/-- The shard loop of `__get_dtype_dims_and_units`: the representative
dataset persists across shards once found; the representative shard is
set to the shard of the current iteration; units are (re)inferred from
the representative's attributes when it has any; the loop stops at the
first non-empty representative. -/
def probeFiles (s : Snap) (g0 : String) (tnames : List String) :
    List Shard → Option (DSet × String) → Option Shard → PyUnits →
    Except PyErr (Option (DSet × String) × Option Shard × PyUnits)
  | [], rep, rsh, u => .ok (rep, rsh, u)
  | sh :: rest, rep, rsh, u =>
      match probeInner s sh g0 tnames with
      | .error e => .error e
      | .ok found =>
          match (match found with | some fd => some fd | none => rep) with
          | none => probeFiles s g0 tnames rest none rsh u
          | some rep2 =>
              match (if rep2.1.hasAttrs then get_units_from_hdf_attr s rep2.1.dattrs
                     else .ok u) with
              | .error e => .error e
              | .ok u2 =>
                  if rep2.1.dlen ≠ 0 then .ok (some rep2, some sh, u2)
                  else probeFiles s g0 tnames rest (some rep2) (some sh) u2

/-- Source `__get_dtype_dims_and_units(fam, translated_names)`: probe the shards
for a representative dataset of the family's first group; derive the
per-particle dimensionality from its shape, corrected by the
particle-count heuristic (`len(dset) // npart` when the first dimension
does not match the group's `ParticleIDs` length); the dtype, with the
`Mass` override to the pre-inferred mass dtype keyed on the last
candidate name tried; and the inferred units. -/
def get_dtype_dims_units (s : Snap) (fam : String) (tnames : List String) :
    Except PyErr (String × Nat × PyUnits × String) :=
  match alookup fam s.familyMap with
  | none => .error .keyError
  | some [] => .error .indexError
  | some (g0 :: _) =>
      match probeFiles s g0 tnames s.shards none none .noUnit with
      | .error e => .error e
      | .ok (none, _, _) => .error .keyError
      | .ok (some (d, lastT), rsh, u) =>
          if d.dshape.length > 2 then .error .assertionError
          else
            match rsh with
            | none => .error .nameError
            | some sh =>
                match alookup g0 sh.groups with
                | none => .error .keyError
                | some g =>
                    match alookup "ParticleIDs" g.children with
                    | none => .error .keyError
                    | some (HNode.sub _) => .error .typeError
                    | some (HNode.ds pd) =>
                        let dy0 := if d.dshape.length > 1 then d.dshape.getD 1 0 else 1
                        let npart := pd.len
                        let dt := if lastT = "Mass" then infer_mass_dtype s else d.ddtype
                        if d.dlen ≠ npart then
                          if npart = 0 then .error .zeroDivisionError
                          else .ok (dt, d.dlen / npart, u, lastT)
                        else .ok (dt, dy0, u, lastT)

/-- Write `vals` over the slice `[a, a + len)` of `l` (the effect of
`read_direct` into a destination slice). -/
def setSeg (l : List Rat) (a len : Nat) (vals : List Rat) : List Rat :=
  l.take a ++ (vals.take len ++ List.replicate (len - vals.length) 0) ++ l.drop (a + len)

/-- The candidate loop of `_load_array`'s fill phase (source lines
561-565).  Unlike `__get_dtype_dims_and_units`, this loop has no `break`
after a successful lookup, so every present candidate overwrites the
variable and the *last* present candidate is the dataset used; a group in
which every candidate is absent leaves the variable from the previous
group (`NameError` when it was never bound). -/
def candLoop (s : Snap) (mt : List Rat) (g : HGroup) :
    List String → Option DSet → Except PyErr (Option DSet)
  | [], dvar => .ok dvar
  | t :: ts, dvar =>
      match get_hdf_dataset s mt g t with
      | .ok d => candLoop s mt g ts (some d)
      | .error .keyError => candLoop s mt g ts dvar
      | .error e => .error e

/-- Python `dataset.read_direct(target)`: a dummy fills the target with its
constant, a real dataset copies its contents. -/
def readData : DSet → Nat → List Rat
  | .dummy v _ _, sz => List.replicate sz v
  | .real d, _ => d.values

/-- The per-family fill loop of `_load_array`: for each group of the
family (skipping empty ones), run the candidate loop, assert the
destination slice size against the dataset size, and copy the dataset
into the family view rows `[i0, i1)` (at row offset `offBase` inside the
destination). -/
def fillGroups (s : Snap) (tnames : List String) (dy offBase famRows : Nat) :
    List (List Rat × HGroup) → Nat → Option DSet → List Rat →
    Except PyErr (List Rat × Option DSet)
  | [], _, dvar, acc => .ok (acc, dvar)
  | (mt, g) :: rest, i0, dvar, acc =>
      let npart := pidSize g
      if npart = 0 then fillGroups s tnames dy offBase famRows rest i0 dvar acc
      else
        match candLoop s mt g tnames dvar with
        | .error e => .error e
        | .ok none => .error .nameError
        | .ok (some d) =>
            let i1 := i0 + npart
            let sz := (min i1 famRows - i0) * dy
            if sz ≠ d.dsize then .error .assertionError
            else
              fillGroups s tnames dy offBase famRows rest i1 (some d)
                (setSeg acc ((offBase + i0) * dy) sz (readData d sz))

/-- The row offset of a family's slice (`self._family_slice[fam].start`
in rows): the summed lengths of the families preceding it in iteration
order. -/
def famStartAux (s : Snap) : List String → String → Nat
  | [], _ => 0
  | g :: gs, f => if g = f then 0 else famLen s g + famStartAux s gs f

def famStartOf (s : Snap) (f : String) : Nat := famStartAux s (families_ordered s) f

/-- The family loop of `_load_array`'s fill phase; the dataset variable
persists across families. -/
def loadFams (s : Snap) (tnames : List String) (dy : Nat) (global : Bool) :
    List String → Option DSet → List Rat → Except PyErr (List Rat)
  | [], _, acc => .ok acc
  | lf :: rest, dvar, acc =>
      match fillGroups s tnames dy (if global then famStartOf s lf else 0) (famLen s lf)
          (famGroupList s lf) 0 dvar acc with
      | .error e => .error e
      | .ok (acc2, dvar2) => loadFams s tnames dy global rest dvar2 acc2

/-- A loaded array: dtype, per-particle dimensionality, units, and
flattened contents. -/
structure ArrV where
  dtype : String
  dy : Nat
  unitsI : PyUnits
  values : List Rat
deriving DecidableEq, Repr

/-- Source `_load_array(array_name, fam)`: reject names outside the loadable
set; translate; infer dtype/dims/units from a representative dataset
(with the mass dtype override); allocate the destination for the
requested scope; and fill it family by family, group by group. -/
def load_array (s : Snap) (arrayName : String) (fam : Option String) :
    Except PyErr ArrV :=
  if loadable s fam arrayName = false then .error .osError
  else
    let tnames := s.trans.toNative arrayName
    match (match fam with
           | some f => Except.ok f
           | none =>
               match snapFamilies s with
               | [] => Except.error PyErr.indexError
               | f :: _ => Except.ok f) with
    | .error e => .error e
    | .ok pf =>
        match get_dtype_dims_units s pf tnames with
        | .error e => .error e
        | .ok (dt0, dy, u, _) =>
            let dt := if arrayName = "mass" then infer_mass_dtype s else dt0
            let famsToLoad := match fam with | some f => [f] | none => snapFamilies s
            let scopeRows := match fam with
              | some f => famLen s f
              | none => numParticles s
            match loadFams s tnames dy fam.isNone famsToLoad none
                (List.replicate (scopeRows * dy) 0) with
            | .error e => .error e
            | .ok vals => .ok ⟨dt, dy, u, vals⟩

/-- A translator with two native candidates for the canonical array
`x`: `A` (priority 1) then `B` (priority 2). -/
def exTransC6 : Translator :=
  ⟨fun n => if n = "x" then ["A", "B"] else [n],
   fun n => if n = "A" then "x" else if n = "B" then "x" else n⟩

/-- A group holding *both* candidate datasets, with different contents:
`A = [10]`, `B = [20]`. -/
def exGroupC6 : HGroup :=
  ⟨"/PartType0",
   [("ParticleIDs", .ds ⟨"uint64", [1], [0], []⟩),
    ("A", .ds ⟨"float32", [1], [10], []⟩),
    ("B", .ds ⟨"float32", [1], [20], []⟩)]⟩

def exSnapC6 : Snap where
  shards := [⟨[("PartType0", exGroupC6)], []⟩]
  familyMap := [("gas", ["PartType0"])]
  trans := exTransC6
  allGroupNames := ["PartType0"]
  softClass := fun _ => none
  softComoving := fun _ => none
  softMaxPhys := fun _ => none
  aFactor := 1
  unitTable := []
  arrays := fun _ _ => ("float32", 1, [])

/-- C6: with candidates `[A, B]` in priority order and both present in
the group, the fill loop of `_load_array` copies `B = [20]` — the *last*
present candidate — because the loop body (source lines 561-565) has no
`break` after a successful lookup, so each later present candidate
overwrites the earlier one.  First-match-wins, as the claim (and the
sibling probe `__get_dtype_dims_and_units`, which does `break` on
success) prescribe, would copy `A = [10]`.  Note the probe half *does*
use `A`: the dtype here is inferred from `A` while the data comes from
`B`. -/
theorem load_array_uses_last_candidate :
    load_array exSnapC6 "x" (some "gas") = .ok ⟨"float32", 1, .noUnit, [20]⟩ := by rfl

theorem get?_take_lt {α : Type} :
    ∀ (l : List α) (a k : Nat), k < a → (l.take a).get? k = l.get? k := by
  intro l
  induction l with
  | nil => intro a k _; simp
  | cons x t ih =>
      intro a k hk
      cases a with
      | zero => omega
      | succ a2 =>
          cases k with
          | zero => rfl
          | succ k2 =>
              simp only [List.take_succ_cons, List.get?]
              exact ih a2 k2 (by omega)

theorem get?_replicate_lt {α : Type} (x : α) :
    ∀ (n j : Nat), j < n → (List.replicate n x).get? j = some x := by
  intro n
  induction n with
  | zero => intro j h; omega
  | succ n2 ih =>
      intro j hj
      cases j with
      | zero => rfl
      | succ j2 =>
          simp only [List.replicate_succ, List.get?]
          exact ih j2 (by omega)

theorem setSeg_zero (l : List Rat) (a : Nat) (vals : List Rat) :
    setSeg l a 0 vals = l := by
  unfold setSeg
  simp [List.take_append_drop]

theorem setSeg_length (l : List Rat) (a len : Nat) (vals : List Rat)
    (h : a + len ≤ l.length) :
    (setSeg l a len vals).length = l.length := by
  unfold setSeg
  rw [List.length_append, List.length_append, List.length_append, List.length_take,
    List.length_take, List.length_replicate, List.length_drop]
  omega

theorem setSeg_get?_lt (l : List Rat) (a len : Nat) (vals : List Rat) (k : Nat)
    (hk : k < a) (ha : a ≤ l.length) :
    (setSeg l a len vals).get? k = l.get? k := by
  unfold setSeg
  have hlen : (l.take a).length = a := by
    rw [List.length_take]
    omega
  rw [List.append_assoc, get?_append_left _ _ k (by rw [hlen]; exact hk)]
  exact get?_take_lt l a k hk

theorem setSeg_get?_inside (l : List Rat) (a len : Nat) (vals : List Rat) (j : Nat)
    (hj : j < len) (hv : vals.length = len) (ha : a + len ≤ l.length) :
    (setSeg l a len vals).get? (a + j) = vals.get? j := by
  unfold setSeg
  have hlen : (l.take a).length = a := by
    rw [List.length_take]
    omega
  have hmid : vals.take len ++ List.replicate (len - vals.length) 0 = vals := by
    rw [hv]
    simp [List.take_of_length_le (Nat.le_of_eq hv)]
  rw [List.append_assoc, hmid]
  have := get?_append_add (l.take a) (vals ++ l.drop (a + len)) j
  rw [hlen] at this
  rw [this]
  exact get?_append_left _ _ j (by rw [hv]; exact hj)

/-- The summed `ParticleIDs` sizes of a list of groups (the offsets the
fill loop accumulates). -/
def presizes (l : List (List Rat × HGroup)) : Nat :=
  (l.map (fun mg => pidSize mg.2)).sum

theorem presizes_append (l1 l2 : List (List Rat × HGroup)) :
    presizes (l1 ++ l2) = presizes l1 + presizes l2 := by
  unfold presizes
  rw [List.map_append, List.sum_append]

theorem famLen_eq_presizes (s : Snap) (f : String) :
    famLen s f = presizes (famGroupList s f) := by
  unfold famLen famGroupList
  induction (alookup f s.familyMap).getD [] with
  | nil => rfl
  | cons p ps ih =>
      simp only [List.map_cons, List.sum_cons, List.flatMap_cons, presizes_append]
      rw [ih]
      rfl

/-- For candidate names that all reverse-translate to the mass
pseudo-array, and a group whose type has a positive `MassTable` entry,
every candidate resolves to the same header-mass dummy, so the candidate
loop ends holding it (or the incoming variable when there are no
candidates). -/
theorem candLoop_mass (s : Snap) (mt : List Rat) (g : HGroup) (c : Char) (m : Rat)
    (d : DsetD)
    (hdig : g.name.data.getLast? = some c) (hcd : c.isDigit = true)
    (hm : mt.get? (c.toNat - 48) = some m) (hm0 : Rat.blt 0 m = true)
    (hpid : alookup "ParticleIDs" g.children = some (HNode.ds d)) :
    ∀ (ts : List String) (dvar : Option DSet),
      (∀ t ∈ ts, s.trans.toCanonical t = "mass") →
      candLoop s mt g ts dvar =
        .ok (match ts with
             | [] => dvar
             | _ :: _ => some (.dummy m d.size (infer_mass_dtype s))) := by
  intro ts
  induction ts with
  | nil => intro dvar _; rfl
  | cons t ts2 ih =>
      intro dvar hcan
      have hget : get_hdf_dataset s mt g t = .ok (.dummy m d.size (infer_mass_dtype s)) := by
        unfold get_hdf_dataset
        rw [if_pos (hcan t (List.mem_cons_self _ _)), hdig]
        simp only [hcd, if_pos]
        rw [hm]
        simp only [hm0, if_pos]
        rw [hpid]
      unfold candLoop
      rw [hget]
      show candLoop s mt g ts2 (some (.dummy m d.size (infer_mass_dtype s))) = _
      rw [ih (some (.dummy m d.size (infer_mass_dtype s)))
        (fun t2 ht2 => hcan t2 (List.mem_cons_of_mem _ ht2))]
      cases ts2 <;> rfl

/-- The fill loop preserves the destination's length and leaves every
position below the current write offset untouched. -/
theorem fillGroups_preserves (s : Snap) (tnames : List String) (dy offBase famRows : Nat) :
    ∀ (gs : List (List Rat × HGroup)) (i0 : Nat) (dvar : Option DSet)
      (acc res : List Rat) (dv : Option DSet),
      fillGroups s tnames dy offBase famRows gs i0 dvar acc = .ok (res, dv) →
      (offBase + famRows) * dy ≤ acc.length →
      res.length = acc.length ∧ ∀ k < (offBase + i0) * dy, res.get? k = acc.get? k := by
  intro gs
  induction gs with
  | nil =>
      intro i0 dvar acc res dv hfill hlen
      simp only [fillGroups] at hfill
      injection hfill with h
      injection h with h1 h2
      subst h1
      exact ⟨rfl, fun k _ => rfl⟩
  | cons hd rest ih =>
      intro i0 dvar acc res dv hfill hlen
      obtain ⟨mt0, g0⟩ := hd
      simp only [fillGroups] at hfill
      split at hfill
      · -- pidSize g0 = 0: skip, same offset
        exact ih i0 dvar acc res dv hfill hlen
      · rename_i hnp
        split at hfill
        · exact absurd hfill (by simp)
        · exact absurd hfill (by simp)
        · rename_i d0 heq
          split at hfill
          · exact absurd hfill (by simp)
          · rename_i hsz
            have hsz2 : (min (i0 + pidSize g0) famRows - i0) * dy = d0.dsize :=
              Decidable.not_not.mp hsz
            set a := (offBase + i0) * dy with ha
            set sz := (min (i0 + pidSize g0) famRows - i0) * dy with hszdef
            by_cases hsz0 : sz = 0
            · rw [hsz0] at hfill
              rw [setSeg_zero] at hfill
              obtain ⟨hl, hp⟩ := ih (i0 + pidSize g0) (some d0) acc res dv hfill hlen
              refine ⟨hl, fun k hk => hp k ?_⟩
              have : (offBase + i0) * dy ≤ (offBase + (i0 + pidSize g0)) * dy :=
                Nat.mul_le_mul_right dy (by omega)
              omega
            · have hi0lt : i0 < min (i0 + pidSize g0) famRows := by
                by_contra hc
                apply hsz0
                rw [hszdef]
                have : min (i0 + pidSize g0) famRows - i0 = 0 := by omega
                rw [this, Nat.zero_mul]
              have hasz : a + sz = (offBase + min (i0 + pidSize g0) famRows) * dy := by
                rw [ha, hszdef, ← Nat.add_mul]
                congr 1
                omega
              have haszle : a + sz ≤ acc.length := by
                rw [hasz]
                calc (offBase + min (i0 + pidSize g0) famRows) * dy
                    ≤ (offBase + famRows) * dy := Nat.mul_le_mul_right dy (by omega)
                  _ ≤ acc.length := hlen
              have hacc2len : (setSeg acc a sz (readData d0 sz)).length = acc.length :=
                setSeg_length acc a sz _ haszle
              obtain ⟨hl, hp⟩ := ih (i0 + pidSize g0) (some d0)
                (setSeg acc a sz (readData d0 sz)) res dv hfill (by rw [hacc2len]; exact hlen)
              refine ⟨by rw [hl, hacc2len], fun k hk => ?_⟩
              have hk2 : k < (offBase + (i0 + pidSize g0)) * dy := by
                have : (offBase + i0) * dy ≤ (offBase + (i0 + pidSize g0)) * dy :=
                  Nat.mul_le_mul_right dy (by omega)
                omega
              rw [hp k hk2]
              exact setSeg_get?_lt acc a sz _ k hk (by omega)

/-- Running the fill loop over `pre ++ (mt, g) :: post` writes, at the
offset accumulated over `pre`, the header-mass constant over `g`'s whole
sub-range — `g`'s candidates all resolve to the `MassTable` dummy. -/
theorem fillGroups_mass_target (s : Snap) (tnames : List String) (dy offBase famRows : Nat)
    (mt : List Rat) (g : HGroup) (c : Char) (m : Rat) (d : DsetD)
    (htne : tnames ≠ [])
    (hcan : ∀ t ∈ tnames, s.trans.toCanonical t = "mass")
    (hdig : g.name.data.getLast? = some c) (hcd : c.isDigit = true)
    (hm : mt.get? (c.toNat - 48) = some m) (hm0 : Rat.blt 0 m = true)
    (hpid : alookup "ParticleIDs" g.children = some (HNode.ds d)) :
    ∀ (pre : List (List Rat × HGroup)) (post : List (List Rat × HGroup)) (i0 : Nat)
      (dvar : Option DSet) (acc res : List Rat) (dv : Option DSet),
      fillGroups s tnames dy offBase famRows (pre ++ (mt, g) :: post) i0 dvar acc =
        .ok (res, dv) →
      (offBase + famRows) * dy ≤ acc.length →
      ∀ j < pidSize g, res.get? ((offBase + i0 + presizes pre) * dy + j) = some m := by
  intro pre
  induction pre with
  | nil =>
      intro post i0 dvar acc res dv hfill hlen j hj
      simp only [presizes, List.map_nil, List.sum_nil, Nat.add_zero]
      simp only [List.nil_append, fillGroups] at hfill
      split at hfill
      · rename_i hnp
        omega
      · rename_i hnp
        split at hfill
        · exact absurd hfill (by simp)
        · exact absurd hfill (by simp)
        · rename_i d0 heq
          obtain ⟨t0, ts0, hts⟩ : ∃ t0 ts0, tnames = t0 :: ts0 := by
            cases tnames with
            | nil => exact absurd rfl htne
            | cons t0 ts0 => exact ⟨t0, ts0, rfl⟩
          have hcl := candLoop_mass s mt g c m d hdig hcd hm hm0 hpid tnames dvar hcan
          rw [hts] at heq
          rw [hts] at hcl
          rw [heq] at hcl
          have hd0 : d0 = .dummy m d.size (infer_mass_dtype s) := by
            injection hcl with h
            exact Option.some.inj h
          subst hd0
          split at hfill
          · exact absurd hfill (by simp)
          · rename_i hsz
            have hsz2 : (min (i0 + pidSize g) famRows - i0) * dy = d.size :=
              Decidable.not_not.mp hsz
            have hnpart : pidSize g = d.size := by
              unfold pidSize
              rw [hpid]
            set a := (offBase + i0) * dy with ha
            set sz := (min (i0 + pidSize g) famRows - i0) * dy with hszdef
            have hszsz : sz = d.size := hsz2
            have hszpos : 0 < sz := by
              rw [hszsz, ← hnpart]
              omega
            have hi0lt : i0 < min (i0 + pidSize g) famRows := by
              by_contra hc
              have : min (i0 + pidSize g) famRows - i0 = 0 := by omega
              rw [hszdef, this, Nat.zero_mul] at hszpos
              omega
            have hasz : a + sz = (offBase + min (i0 + pidSize g) famRows) * dy := by
              rw [ha, hszdef, ← Nat.add_mul]
              congr 1
              omega
            have haszle : a + sz ≤ acc.length := by
              rw [hasz]
              calc (offBase + min (i0 + pidSize g) famRows) * dy
                  ≤ (offBase + famRows) * dy := Nat.mul_le_mul_right dy (by omega)
                _ ≤ acc.length := hlen
            have hacc2len :
                (setSeg acc a sz (readData (.dummy m d.size (infer_mass_dtype s)) sz)).length
                  = acc.length := setSeg_length acc a sz _ haszle
            obtain ⟨hl, hp⟩ := fillGroups_preserves s tnames dy offBase famRows post
              (i0 + pidSize g) (some (.dummy m d.size (infer_mass_dtype s)))
              (setSeg acc a sz (readData (.dummy m d.size (infer_mass_dtype s)) sz)) res dv
              hfill (by rw [hacc2len]; exact hlen)
            have hjsz : j < sz := by
              rw [hszsz, ← hnpart]
              exact hj
            have hstep : (offBase + i0) * dy + j < (offBase + (i0 + pidSize g)) * dy := by
              have h1 : a + sz ≤ (offBase + (i0 + pidSize g)) * dy := by
                rw [hasz]
                exact Nat.mul_le_mul_right dy (by omega)
              omega
            rw [hp ((offBase + i0) * dy + j) hstep]
            have hread : readData (DSet.dummy m d.size (infer_mass_dtype s)) sz =
                List.replicate sz m := rfl
            rw [hread]
            have := setSeg_get?_inside acc a sz (List.replicate sz m) j hjsz
              (List.length_replicate sz m) haszle
            rw [ha] at this
            rw [this]
            exact get?_replicate_lt m sz j hjsz
  | cons hd pre2 ih =>
      intro post i0 dvar acc res dv hfill hlen j hj
      obtain ⟨mt0, g0⟩ := hd
      simp only [presizes, List.map_cons, List.sum_cons]
      simp only [List.cons_append, fillGroups] at hfill
      split at hfill
      · rename_i hnp
        have hres := ih post i0 dvar acc res dv hfill hlen j hj
        simp only [presizes] at hres
        rw [hnp]
        have hidx : offBase + i0 + (0 + (pre2.map (fun mg => pidSize mg.2)).sum) =
            offBase + i0 + (pre2.map (fun mg => pidSize mg.2)).sum := by omega
        rw [hidx]
        exact hres
      · rename_i hnp
        split at hfill
        · exact absurd hfill (by simp)
        · exact absurd hfill (by simp)
        · rename_i d0 heq
          split at hfill
          · exact absurd hfill (by simp)
          · rename_i hsz
            set a := (offBase + i0) * dy with ha
            set sz := (min (i0 + pidSize g0) famRows - i0) * dy with hszdef
            have hlen2 : (offBase + famRows) * dy ≤
                (setSeg acc a sz (readData d0 sz)).length := by
              by_cases hsz0 : sz = 0
              · rw [hsz0, setSeg_zero]
                exact hlen
              · have hi0lt : i0 < min (i0 + pidSize g0) famRows := by
                  by_contra hc
                  apply hsz0
                  rw [hszdef]
                  have : min (i0 + pidSize g0) famRows - i0 = 0 := by omega
                  rw [this, Nat.zero_mul]
                have hasz : a + sz = (offBase + min (i0 + pidSize g0) famRows) * dy := by
                  rw [ha, hszdef, ← Nat.add_mul]
                  congr 1
                  omega
                have haszle : a + sz ≤ acc.length := by
                  rw [hasz]
                  calc (offBase + min (i0 + pidSize g0) famRows) * dy
                      ≤ (offBase + famRows) * dy := Nat.mul_le_mul_right dy (by omega)
                    _ ≤ acc.length := hlen
                rw [setSeg_length acc a sz _ haszle]
                exact hlen
            have hres := ih post (i0 + pidSize g0) (some d0)
              (setSeg acc a sz (readData d0 sz)) res dv hfill hlen2 j hj
            simp only [presizes] at hres
            have hidx : offBase + i0 + (pidSize g0 + (pre2.map (fun mg => pidSize mg.2)).sum) =
                offBase + (i0 + pidSize g0) + (pre2.map (fun mg => pidSize mg.2)).sum := by
              omega
            rw [hidx]
            exact hres

/-- C9: for a NativeGroup whose type has a positive header `MassTable`
entry `m` (in the claim's scenario, one with no on-disk mass dataset —
the header route takes precedence either way), loading the canonical
mass array for its Family succeeds with every element of that group's
index sub-range equal to `m`, and with the array dtype equal to the
shared mass dtype inferred in advance from the snapshot's `Coordinates`
datasets — not the dtype of any on-disk mass dataset. -/
theorem load_mass_header_constant (s : Snap) (f : String)
    (pre post : List (List Rat × HGroup)) (mt : List Rat) (g : HGroup) (c : Char)
    (m : Rat) (d : DsetD) (arr : ArrV)
    (htn : s.trans.toNative "mass" ≠ [])
    (hcan : ∀ t ∈ s.trans.toNative "mass", s.trans.toCanonical t = "mass")
    (hgl : famGroupList s f = pre ++ (mt, g) :: post)
    (hdig : g.name.data.getLast? = some c) (hcd : c.isDigit = true)
    (hm : mt.get? (c.toNat - 48) = some m) (hm0 : Rat.blt 0 m = true)
    (hpid : alookup "ParticleIDs" g.children = some (HNode.ds d))
    (hload : load_array s "mass" (some f) = .ok arr) :
    arr.dtype = infer_mass_dtype s ∧
      ∀ j < pidSize g, arr.values.get? (presizes pre * arr.dy + j) = some m := by
  simp only [load_array] at hload
  split at hload
  · exact absurd hload (by simp)
  · split at hload
    · exact absurd hload (by simp)
    · rename_i dtu dt0 dy u lastT hdtu
      split at hload
      · exact absurd hload (by simp)
      · rename_i vals heq
        simp only [if_true] at hload
        injection hload with harr
        subst harr
        simp only [loadFams, Option.isNone] at heq
        split at heq
        · exact absurd heq (by simp)
        · rename_i p acc2 dvar2 hfg
          injection heq with hacc
          subst hacc
          rw [hgl] at hfg
          have hbound : (0 + famLen s f) * dy ≤
              (List.replicate (famLen s f * dy) (0 : Rat)).length := by
            rw [List.length_replicate, Nat.zero_add]
          have htgt := fillGroups_mass_target s (s.trans.toNative "mass") dy 0 (famLen s f)
            mt g c m d htn hcan hdig hcd hm hm0 hpid pre post 0 none
            (List.replicate (famLen s f * dy) 0) acc2 dvar2 hfg hbound
          refine ⟨rfl, fun j hj => ?_⟩
          have := htgt j hj
          simpa using this

/-- A single group of type index 1 with two particles, no on-disk mass
dataset, and a `Coordinates` dataset of dtype float32 (which fixes the
inferred shared mass dtype). -/
def exGroupC9 : HGroup :=
  ⟨"/PartType1",
   [("ParticleIDs", .ds ⟨"uint64", [2], [0, 1], []⟩),
    ("Coordinates", .ds ⟨"float32", [2, 3], [0, 0, 0, 0, 0, 0], []⟩)]⟩

def exTransC9 : Translator :=
  ⟨fun n => if n = "mass" then ["Masses", "Mass"] else [n],
   fun n => if n = "Masses" then "mass" else if n = "Mass" then "mass" else n⟩

/-- A snapshot whose header `MassTable` declares mass 2 for type 1. -/
def exSnapC9 : Snap where
  shards := [⟨[("PartType1", exGroupC9)], [0, 2]⟩]
  familyMap := [("dm", ["PartType1"])]
  trans := exTransC9
  allGroupNames := ["PartType1"]
  softClass := fun _ => none
  softComoving := fun _ => none
  softMaxPhys := fun _ => none
  aFactor := 1
  unitTable := []
  arrays := fun _ _ => ("float64", 1, [])

/-- C9 witness: loading mass for the family of a `MassTable = 2` group
with no on-disk mass dataset yields the constant 2 over its sub-range at
the `Coordinates`-inferred dtype. -/
theorem load_mass_header_constant_witness :
    (ArrV.mk "float32" 1 .noUnit [2, 2]).dtype = infer_mass_dtype exSnapC9 ∧
      (ArrV.mk "float32" 1 .noUnit [2, 2]).values.get? (presizes [] * 1 + 0) = some 2 := by
  have h := load_mass_header_constant exSnapC9 "dm" [] [] [0, 2] exGroupC9 '1' 2
    ⟨"uint64", [2], [0, 1], []⟩ (ArrV.mk "float32" 1 .noUnit [2, 2])
    (by decide) (by decide) (by rfl) (by rfl) (by rfl) (by rfl) (by rfl) (by rfl) (by rfl)
  exact ⟨h.1, h.2 0 (by decide)⟩

/-! ## Write-back (`write_array`) -/

/-- Source `_get_or_create_hdf_dataset` followed by the loop body's
`write_direct`: reject any name whose canonical translation is the mass
pseudo-array with the documented `OSError`; otherwise resolve the
`/`-separated path, `require_dataset(name, shape, dtype, exact=True)` —
an existing dataset must match the shape and dtype exactly (`TypeError`
otherwise), a missing one is created — and write the slice through. -/
def getOrCreateWrite (tr : Translator) (g : HGroup) (hdfName : String)
    (vals : List Rat) (shape : List Nat) (dtype : String) : Except PyErr HGroup :=
  if tr.toCanonical hdfName = "mass" then .error .osError
  else
    match splitSlash hdfName with
    | [n] =>
        match alookup n g.children with
        | some (HNode.ds d) =>
            if d.shape = shape ∧ d.dtype = dtype then
              .ok { g with children := aset n (.ds { d with values := vals }) g.children }
            else .error .typeError
        | some (HNode.sub _) => .error .typeError
        | none =>
            .ok { g with children := aset n (.ds ⟨dtype, shape, vals, []⟩) g.children }
    | [sname, n] =>
        match alookup sname g.children with
        | some (HNode.sub ch) =>
            match alookup n ch with
            | some d =>
                if d.shape = shape ∧ d.dtype = dtype then
                  .ok { g with children := aset sname (.sub (aset n ({ d with values := vals }) ch)) g.children }
                else .error .typeError
            | none =>
                .ok { g with children := aset sname (.sub (aset n ⟨dtype, shape, vals, []⟩ ch)) g.children }
        | some (HNode.ds _) => .error .typeError
        | none => .error .keyError
    | _ => .error .keyError

/-- The shard-index/type-name addresses of the groups
`_all_hdf_groups_in_family` yields, in their iteration order. -/
def groupAddrs (s : Snap) (f : String) : List (Nat × String) :=
  ((alookup f s.familyMap).getD []).flatMap (fun p =>
    s.shards.enum.filterMap (fun isv =>
      match alookup p isv.2.groups with
      | some g => if groupHasKey g "ParticleIDs" then some (isv.1, p) else none
      | none => none))

def updShard (shards : List Shard) (i : Nat) (p : String) (g : HGroup) : List Shard :=
  shards.enum.map (fun isv =>
    if isv.1 = i then { isv.2 with groups := aset p g isv.2.groups } else isv.2)

/-- The group loop of `write_array` for one family: slice the in-memory
array rows `[i0, i1)`, get-or-create the dataset at the translated name
with the slice's shape and dtype, and write it.  The first error aborts
the loop, leaving the shards as mutated so far. -/
def writeGroups (tname : String) (adtype : String) (dy : Nat) (avals : List Rat) :
    Snap → List (Nat × String) → Nat → Option PyErr × Snap
  | sp, [], _ => (none, sp)
  | sp, (si, p) :: rest, i0 =>
      match sp.shards.get? si with
      | none => (some .indexError, sp)
      | some sh =>
          match alookup p sh.groups with
          | none => (some .keyError, sp)
          | some g =>
              let npart := pidSize g
              let i1 := i0 + npart
              let sub := (avals.drop (i0 * dy)).take (npart * dy)
              let rows := sub.length / dy
              let shape := if dy = 1 then [rows] else [rows, dy]
              match getOrCreateWrite sp.trans g tname sub shape adtype with
              | .error e => (some e, sp)
              | .ok g2 =>
                  writeGroups tname adtype dy avals
                    { sp with shards := updShard sp.shards si p g2 } rest i1

/-- The family loop of `write_array`: fetch the in-memory array of the
family and write it group by group. -/
def writeFams (tname arrayName : String) : Snap → List String → Option PyErr × Snap
  | sp, [] => (none, sp)
  | sp, wf :: rest =>
      match writeGroups tname (sp.arrays wf arrayName).1 (sp.arrays wf arrayName).2.1
          (sp.arrays wf arrayName).2.2 sp (groupAddrs sp wf) 0 with
      | (some e, sp2) => (some e, sp2)
      | (none, sp2) => writeFams tname arrayName sp2 rest

/-- The state `write_array` acts on: the snapshot contents and the shard
manager. -/
structure SnapState where
  snap : Snap
  mgr : MgrState

/-- Source `write_array(array_name, fam)`: take the first translated native name
(an empty translation raises `IndexError` before any mode change);
reopen the shard manager in read-write mode; write each targeted family;
and — in the `finally` block — reopen in read-only mode on every exit
path. -/
def write_array (st : SnapState) (arrayName : String) (fam : Option String) :
    Except PyErr Unit × SnapState :=
  match st.snap.trans.toNative arrayName with
  | [] => (.error .indexError, st)
  | t :: _ =>
      let mgr1 := reopen_in_mode st.mgr "r+"
      let famsToWrite := match fam with
        | none => snapFamilies st.snap
        | some f => [f]
      match writeFams t arrayName st.snap famsToWrite with
      | (none, sp2) => (.ok (), ⟨sp2, reopen_in_mode mgr1 "r"⟩)
      | (some e, sp2) => (.error e, ⟨sp2, reopen_in_mode mgr1 "r"⟩)

theorem reopen_to_r_mode (m : MgrState) : (reopen_in_mode m "r").mode = "r" := by
  unfold reopen_in_mode
  by_cases hm : "r" = m.mode
  · rw [if_neg (by simp [hm])]
    exact hm.symm
  · rw [if_pos hm]

/-- C3: on every exit path of `write_array` — normal completion, the mass
rejection, or any failure raised while filling datasets — the shard
manager ends in read-only mode: the `finally` block reopens mode `"r"`
unconditionally, and the only path that skips it (an empty name
translation, which raises before any mode change) never left `"r"`. -/
theorem write_array_restores_readonly (st : SnapState) (arrayName : String)
    (fam : Option String) (h : st.mgr.mode = "r") :
    ((write_array st arrayName fam).2).mgr.mode = "r" := by
  cases htn : st.snap.trans.toNative arrayName with
  | nil =>
      simp only [write_array, htn]
      exact h
  | cons t ts =>
      simp only [write_array, htn]
      rcases hwf : writeFams t arrayName st.snap
          (match fam with | none => snapFamilies st.snap | some f => [f]) with ⟨o, sp2⟩
      cases o with
      | none => exact reopen_to_r_mode _
      | some e => exact reopen_to_r_mode _

/-- C3 witness: a concrete call ends with the manager in mode `"r"`. -/
theorem write_array_restores_readonly_witness :
    ((write_array ⟨exSnapC9, ⟨1, ["snap.0.hdf5"], "r", []⟩⟩ "foo" none).2).mgr.mode = "r" :=
  write_array_restores_readonly ⟨exSnapC9, ⟨1, ["snap.0.hdf5"], "r", []⟩⟩ "foo" none rfl

/-- Every address yielded for a family resolves to a shard and a group
(the iterator only yields groups that exist). -/
theorem groupAddrs_mem_valid (sp : Snap) (wf : String) :
    ∀ a ∈ groupAddrs sp wf,
      ∃ sh g, sp.shards.get? a.1 = some sh ∧ alookup a.2 sh.groups = some g := by
  intro a ha
  unfold groupAddrs at ha
  rw [List.mem_flatMap] at ha
  obtain ⟨p, _, hp⟩ := ha
  rw [List.mem_filterMap] at hp
  obtain ⟨isv, hmem, hf⟩ := hp
  have hget : sp.shards.get? isv.1 = some isv.2 := by
    obtain ⟨i, v⟩ := isv
    have h2 := List.mk_mem_enum_iff_getElem?.mp hmem
    simpa [List.get?_eq_getElem?] using h2
  cases hlk : alookup p isv.2.groups with
  | none => simp [hlk] at hf
  | some g =>
      simp only [hlk] at hf
      by_cases hhk : groupHasKey g "ParticleIDs" = true
      · rw [if_pos hhk] at hf
        injection hf with hf2
        subst hf2
        exact ⟨isv.2, g, hget, hlk⟩
      · rw [if_neg hhk] at hf
        exact absurd hf (by simp)

/-- When the translated name reverse-translates to the mass pseudo-array,
the very first group write raises the documented `OSError`, before any
dataset is created or modified. -/
theorem writeGroups_mass_head (tname adtype : String) (dy : Nat) (avals : List Rat)
    (sp : Snap) (si : Nat) (p : String) (rest : List (Nat × String)) (i0 : Nat)
    (sh : Shard) (g : HGroup)
    (hcan : sp.trans.toCanonical tname = "mass")
    (hsh : sp.shards.get? si = some sh) (hg : alookup p sh.groups = some g) :
    writeGroups tname adtype dy avals sp ((si, p) :: rest) i0 = (some .osError, sp) := by
  have hoc : ∀ (vals : List Rat) (shape : List Nat),
      getOrCreateWrite sp.trans g tname vals shape adtype = .error .osError := by
    intro vals shape
    unfold getOrCreateWrite
    rw [if_pos hcan]
  simp only [writeGroups, hsh, hg, hoc]

theorem writeFams_mass (tname arrayName : String) :
    ∀ (fams : List String) (sp : Snap),
      sp.trans.toCanonical tname = "mass" →
      (∃ wf ∈ fams, groupAddrs sp wf ≠ []) →
      writeFams tname arrayName sp fams = (some .osError, sp) := by
  intro fams
  induction fams with
  | nil =>
      intro sp _ hex
      obtain ⟨w, hw, _⟩ := hex
      cases hw
  | cons wf rest ih =>
      intro sp hcan hex
      cases haddr : groupAddrs sp wf with
      | nil =>
          have hex2 : ∃ w ∈ rest, groupAddrs sp w ≠ [] := by
            obtain ⟨w, hw, hne⟩ := hex
            rcases List.mem_cons.mp hw with hw | hw
            · subst hw
              exact absurd haddr hne
            · exact ⟨w, hw, hne⟩
          simp only [writeFams, haddr]
          simp only [writeGroups]
          exact ih sp hcan hex2
      | cons a rest2 =>
          obtain ⟨si, p⟩ := a
          obtain ⟨sh, g, hsh, hg⟩ := groupAddrs_mem_valid sp wf (si, p)
            (by rw [haddr]; exact List.mem_cons_self _ _)
          simp only [writeFams, haddr]
          rw [writeGroups_mass_head tname (sp.arrays wf arrayName).1
            (sp.arrays wf arrayName).2.1 (sp.arrays wf arrayName).2.2 sp si p rest2 0
            sh g hcan hsh hg]

/-- C2: writing back the mass pseudo-array raises the documented
`OSError` — `_get_or_create_hdf_dataset` rejects any native name whose
reverse translation is the mass array, and that rejection fires at the
very first group written — and no dataset is created or modified (the
shard contents are exactly the input's).  Hypotheses: the translator maps
`mass` to at least one native name whose reverse translation is `mass`
(the bidirectional contract of the name mapper, which lives outside this
file), and the written scope contains at least one native group
(otherwise the loop body never runs and nothing at all happens). -/
theorem write_array_mass_rejected (st : SnapState) (fam : Option String)
    (t : String) (ts : List String)
    (ht : st.snap.trans.toNative "mass" = t :: ts)
    (hcan : st.snap.trans.toCanonical t = "mass")
    (hgrp : ∃ wf ∈ (match fam with | none => snapFamilies st.snap | some f => [f]),
        groupAddrs st.snap wf ≠ []) :
    (write_array st "mass" fam).1 = .error .osError ∧
      ((write_array st "mass" fam).2).snap.shards = st.snap.shards := by
  cases fam with
  | some f =>
      simp only [write_array, ht]
      rw [writeFams_mass t "mass" [f] st.snap hcan (by simpa using hgrp)]
      exact ⟨rfl, rfl⟩
  | none =>
      simp only [write_array, ht]
      rw [writeFams_mass t "mass" (snapFamilies st.snap) st.snap hcan (by simpa using hgrp)]
      exact ⟨rfl, rfl⟩

/-- C2 witness: the mass rejection at a concrete snapshot, for an
explicit family and for the all-families case. -/
theorem write_array_mass_rejected_witness :
    (write_array ⟨exSnapC9, ⟨1, ["snap.0.hdf5"], "r", []⟩⟩ "mass" (some "dm")).1 =
        .error .osError ∧
      ((write_array ⟨exSnapC9, ⟨1, ["snap.0.hdf5"], "r", []⟩⟩ "mass"
          (some "dm")).2).snap.shards = exSnapC9.shards := by
  exact write_array_mass_rejected ⟨exSnapC9, ⟨1, ["snap.0.hdf5"], "r", []⟩⟩ (some "dm")
    "Masses" ["Mass"] (by rfl) (by rfl)
    ⟨"dm", List.mem_cons_self _ _, by decide⟩

end PynbodyGadgetHDF
